import Mathlib

/-!
# Verification of the straya-mapp deduplication core

Shallow embedding of the deduplication engine of the repository:

* `src/preprocessing/delete_helpers.py` — sidecar (JSON) load/save and the
  deletion coordinator `remove_paths_from_image_json`;
* `src/preprocessing/cluster_similar_images.py` — BFS connected components,
  `evaluate_thresholds` (threshold sweep) and `select_representative`;
* `src/preprocessing/remove_duplicates.py` — DFS connected components,
  `select_representative` and `apply_threshold`.

Modelling conventions:

* File paths and identifiers are `String`s; in the single working directory
  all identifiers are bare filenames, so `Path.name` is the identifier
  itself.  `Path.resolve` is modelled as prefixing the base directory to a
  relative path (no `..`-normalisation or symlinks; the claims do not
  depend on it).
* The filesystem is explicit state: a list of present paths plus a list of
  "locked" paths on which `unlink` raises (e.g. permission denied).
  Effects are recorded as an `FsOp` trace so that properties about *how*
  files are written (directly vs. temp-file-and-rename) can be stated.
* Python exceptions become `Except`; the error value carries the state at
  the moment of the raise, so that "the batch was aborted" is observable.
* Python `dict`s become association lists with distinct keys (`dict`s
  cannot hold a key twice); Python `set`s become lists where only
  membership matters.
-/

/-! ## JSON values (the sidecar content model) -/

/-- JSON value, as read by `json.load` in `delete_helpers.py`. -/
inductive JVal where
  | jnull : JVal
  | jbool : Bool → JVal
  | jnum : Int → JVal
  | jstr : String → JVal
  | jarr : List JVal → JVal
  | jobj : List (String × JVal) → JVal

/-- `dict.get(k)`: first binding of `k` (dict keys are unique). -/
def lookupJ (fs : List (String × JVal)) (k : String) : Option JVal :=
  match fs with
  | [] => none
  | kv :: rest => if kv.1 = k then some kv.2 else lookupJ rest k

/-- `d[k] = v` on a copied dict: replace the binding in place if present
(preserving its position), else append at the end — CPython dict update
semantics. -/
def setKey (fs : List (String × JVal)) (k : String) (v : JVal) :
    List (String × JVal) :=
  if fs.any (fun kv => kv.1 = k) then
    fs.map (fun kv => if kv.1 = k then (kv.1, v) else kv)
  else fs ++ [(k, v)]

/-- `data.get("images", [])` followed by iterating the result as a list of
records (a non-list value under `"images"` would fail iteration; we model
only well-shaped sidecars, where `"images"` is absent or a list). -/
def getImages (fs : List (String × JVal)) : List JVal :=
  match lookupJ fs "images" with
  | some (JVal.jarr xs) => xs
  | _ => []

/-! ## `delete_helpers.load_image_json` / `save_image_json`

`load_image_json` takes the parsed content of the sidecar file (`none` =
file absent, raising `FileNotFoundError`).  It returns the original
structure together with the image list, or raises `ValueError` when the
JSON is neither a dict nor a list. -/

def load_image_json (content : Option JVal) :
    Except String (JVal × List JVal) :=
  match content with
  | none => Except.error "FileNotFoundError"
  | some data =>
    match data with
    | JVal.jobj fs => Except.ok (data, getImages fs)
    | JVal.jarr xs => Except.ok (data, xs)
    | _ => Except.error "ValueError"

/-- The JSON value `save_image_json` writes: a dict keeps its other
top-level fields and gets `"images"` replaced; anything else is written as
the bare image list. -/
def save_image_json (original_data : JVal) (images : List JVal) : JVal :=
  match original_data with
  | JVal.jobj fs => JVal.jobj (setKey fs "images" (JVal.jarr images))
  | _ => JVal.jarr images

/-! ## `delete_helpers.remove_paths_from_image_json`

The deletion coordinator.  Filesystem-effect model: `disk` is the list of
present (resolved) paths, `locked` the present-or-not paths on which
`Path.unlink` raises (permission denied etc.); every performed operation
is appended to an `FsOp` trace.  `targets` are the already-resolved target
paths (the Python code resolves each target against the caller's working
directory; callers pass absolute paths of the working image directory). -/

/-- A filesystem side effect performed by the coordinator. -/
inductive FsOp where
  | write : String → JVal → FsOp    -- `open(path, "w")` + `json.dump`
  | rename : String → String → FsOp -- a temp-file rename (never emitted)
  | unlink : String → FsOp          -- `Path.unlink`

/-- `item.get(key)` followed by Python truthiness: absent keys, non-string
values and the empty string all fail `if path_str:` and yield no path. -/
def getPathField (item : JVal) (key : String) : Option String :=
  match item with
  | JVal.jobj fs =>
    match lookupJ fs key with
    | some (JVal.jstr s) => if s = "" then none else some s
    | _ => none
  | _ => none

/-- Does the first list start with the second?  (Character-level model
of the string functions, which the kernel can evaluate.) -/
def charsStartWith : List Char → List Char → Bool
  | _, [] => true
  | [], _ :: _ => false
  | c :: cs, p :: ps => c = p && charsStartWith cs ps

/-- `pathlib.Path.is_absolute()`: the path starts with `/`. -/
def isAbsolutePath (p : String) : Bool :=
  match p.data with
  | [] => false
  | c :: _ => c = '/'

/-- `(base_dir / p).resolve() if not p.is_absolute() else p.resolve()`,
with `resolve` modelled as plain prefixing (no `..` or symlinks). -/
def resolvePath (base : String) (p : String) : String :=
  if isAbsolutePath p then p else base ++ "/" ++ p

/-- The record-matching test of `remove_paths_from_image_json`: any of the
three path-bearing fields, resolved, lies in the target set. -/
def should_remove (base : String) (targetPaths : List String)
    (item : JVal) : Bool :=
  ["path", "thumbnail", "filename"].any (fun key =>
    match getPathField item key with
    | some s => decide (resolvePath base s ∈ targetPaths)
    | none => false)

/-- Mutable state of the batch loop of `remove_paths_from_image_json`. -/
structure LoopSt where
  kept : List JVal
  removed : Nat
  deleted : Nat
  missing : Nat
  disk : List String
  ops : List FsOp

/-- `if resolved_path.is_file(): resolved_path.unlink(); deleted += 1
else: missing += 1` — the unlink is NOT wrapped in try/except, so a
locked file raises. -/
def unlinkTarget (locked : List String) (st : LoopSt) (rp : String) :
    Except (String × LoopSt) LoopSt :=
  if rp ∈ st.disk then
    if rp ∈ locked then Except.error ("PermissionError", st)
    else Except.ok { st with disk := st.disk.erase rp,
                             deleted := st.deleted + 1,
                             ops := st.ops ++ [FsOp.unlink rp] }
  else Except.ok { st with missing := st.missing + 1 }

/-- One iteration of `for key in ("path", "thumbnail")` for a removed
record: fields that fail Python truthiness are skipped. -/
def unlinkField (base : String) (locked : List String) (item : JVal)
    (key : String) (st : LoopSt) : Except (String × LoopSt) LoopSt :=
  match getPathField item key with
  | some s => unlinkTarget locked st (resolvePath base s)
  | none => Except.ok st

/-- The `for key in ("path", "thumbnail")` deletion loop for one removed
record; an exception from the first unlink skips the second. -/
def deleteItemFiles (base : String) (locked : List String) (item : JVal)
    (st : LoopSt) : Except (String × LoopSt) LoopSt :=
  match unlinkField base locked item "path" st with
  | Except.error e => Except.error e
  | Except.ok st1 => unlinkField base locked item "thumbnail" st1

/-- The `for item in images` loop: matched records are counted (and their
files deleted when `delete_files`), unmatched records are kept in order.
An exception inside the loop aborts the whole batch. -/
def processItems (base : String) (targetPaths locked : List String)
    (delete_files : Bool) :
    List JVal → LoopSt → Except (String × LoopSt) LoopSt
  | [], st => Except.ok st
  | item :: rest, st =>
    if should_remove base targetPaths item then
      let st1 := { st with removed := st.removed + 1 }
      if delete_files then
        match deleteItemFiles base locked item st1 with
        | Except.error e => Except.error e
        | Except.ok st2 =>
          processItems base targetPaths locked delete_files rest st2
      else processItems base targetPaths locked delete_files rest st1
    else
      processItems base targetPaths locked delete_files rest
        { st with kept := st.kept ++ [item] }

/-- Result of a completed `remove_paths_from_image_json` run: the summary
dict plus the observable final state. -/
structure RemoveResult where
  removed_from_json : Nat
  deleted_files : Nat
  missing_files : Nat
  sidecar : JVal        -- content of the sidecar file after the run
  wrote : Bool          -- whether the sidecar file was rewritten
  disk : List String
  ops : List FsOp

/-- `remove_paths_from_image_json(json_path, targets, base_dir,
delete_files)` over the explicit state model.  `sidecarContent` is the
current content of the file at `json_path` (`none` = absent). -/
def remove_paths_from_image_json (json_path : String)
    (sidecarContent : Option JVal) (targetPaths locked : List String)
    (base : String) (delete_files : Bool) (disk : List String) :
    Except (String × LoopSt) RemoveResult :=
  match load_image_json sidecarContent with
  | Except.error e => Except.error (e, ⟨[], 0, 0, 0, disk, []⟩)
  | Except.ok (original_data, images) =>
    match processItems base targetPaths locked delete_files images
        ⟨[], 0, 0, 0, disk, []⟩ with
    | Except.error e => Except.error e
    | Except.ok st =>
      if st.removed > 0 then
        let newData := save_image_json original_data st.kept
        Except.ok ⟨st.removed, st.deleted, st.missing, newData, true,
          st.disk, st.ops ++ [FsOp.write json_path newData]⟩
      else
        Except.ok ⟨st.removed, st.deleted, st.missing, original_data, false,
          st.disk, st.ops⟩


/-! ## Shared clustering model

Both `cluster_similar_images.py` and `remove_duplicates.py` build the same
implicit adjacency structure (`defaultdict(set)` over the pair list) and
traverse it; they differ only in the traversal (queue vs. recursion).
Python `dict` key insertion order is modelled by first-occurrence
deduplication; Python `set` neighbour iteration order is unspecified, and
the results proved below are independent of it. -/

section Clustering

variable {α : Type} [DecidableEq α]

/-- Keep the first occurrence of each element (CPython key insertion
order). -/
def dedupFirstAux (seen : List α) : List α → List α
  | [] => []
  | x :: xs =>
    if x ∈ seen then dedupFirstAux seen xs
    else x :: dedupFirstAux (x :: seen) xs

def dedupFirst (l : List α) : List α := dedupFirstAux [] l

/-- The graph's node list: dict keys of the adjacency structure, in
insertion order (`graph[a].add(b); graph[b].add(a)` per pair). -/
def nodesOf (pairs : List (α × α)) : List α :=
  dedupFirst ((pairs.map (fun ab => [ab.1, ab.2])).flatten)

/-- The neighbour set `graph[x]` as a duplicate-free list. -/
def nbrsOf (pairs : List (α × α)) (x : α) : List α :=
  dedupFirst ((pairs.filter (fun ab => ab.1 = x)).map Prod.snd ++
    (pairs.filter (fun ab => ab.2 = x)).map Prod.fst)

/-- One undirected edge of the similarity graph (specification side). -/
def edgeStep (pairs : List (α × α)) (x y : α) : Prop :=
  (x, y) ∈ pairs ∨ (y, x) ∈ pairs

/-- `connRel pairs x y`: x and y are joined by a chain of edges — the
connected-components relation of the undirected graph induced by the
pairs (specification side). -/
def connRel (pairs : List (α × α)) : α → α → Prop :=
  Relation.ReflTransGen (edgeStep pairs)

/-- The neighbour scan of the BFS in `cluster_similar_images.py`:
`for neighbor in graph[curr]: if neighbor not in visited:
visited.add(neighbor); q.append(neighbor)`. -/
def enqueueNbrs (nbs q vis : List α) : List α × List α :=
  nbs.foldl (fun s nb => if nb ∈ s.2 then s else (s.1 ++ [nb], nb :: s.2))
    (q, vis)

/-- The BFS queue loop (`while head < len(q)`), fuel-indexed; the fuel
passed by `find_connected_components` always suffices (proved below), so
the 0-fuel branch is never reached there.  Returns the final queue
(whose element set is the component `comp`) and the visited set. -/
def bfsAux (nbrs : α → List α) :
    Nat → List α → Nat → List α → List α × List α
  | 0, q, _, vis => (q, vis)
  | fuel + 1, q, head, vis =>
    if h : head < q.length then
      let s := enqueueNbrs (nbrs (q.get ⟨head, h⟩)) q vis
      bfsAux nbrs fuel s.1 (head + 1) s.2
    else (q, vis)

/-- The recursive DFS of `remove_duplicates.py`, fuel-indexed; state is
`(visited, comp)`. -/
def dfsAux (nbrs : α → List α) :
    Nat → α → List α × List α → List α × List α
  | 0, _, s => s
  | fuel + 1, node, s =>
    if node ∈ s.1 then s
    else
      (nbrs node).foldl
        (fun t nb => if nb ∈ t.1 then t else dfsAux nbrs fuel nb t)
        (node :: s.1, node :: s.2)

end Clustering

/-- Hamming distance of two fingerprints: `imagehash` subtraction counts
the differing bit positions (fingerprints of one run share one width). -/
def hamming (x y : List Bool) : Nat :=
  (x.zipWith (fun a b => a != b) y).count true

section ClusteringOrd

variable {α : Type} [DecidableEq α] [LinearOrder α]

/-- The `i < j` pairwise distance table over the fingerprint map's key
list, in row-major order — the nested loops of `evaluate_thresholds` and
`apply_threshold`. -/
def pairDistances : List (α × List Bool) → List (α × α × Nat)
  | [] => []
  | (a, ha) :: rest =>
    (rest.map (fun bh => (a, bh.1, hamming ha bh.2))) ++ pairDistances rest

/-- The similarity edges at a threshold: pairs at Hamming distance `≤ thr`. -/
def sweepPairs (ds : List (α × α × Nat)) (thr : Nat) : List (α × α) :=
  (ds.filter (fun t => decide (t.2.2 ≤ thr))).map (fun t => (t.1, t.2.1))

end ClusteringOrd

namespace ClusterSimilarImages

variable {α : Type} [DecidableEq α] [LinearOrder α]

/-- `find_connected_components` of `cluster_similar_images.py` (BFS over
the adjacency structure, nodes scanned in insertion order, each component
of size ≥ 2 appended as a sorted list). -/
def find_connected_components (pairs : List (α × α)) : List (List α) :=
  let nodes := nodesOf pairs
  (nodes.foldl (fun (s : List α × List (List α)) node =>
    if node ∈ s.1 then s
    else
      let r := bfsAux (nbrsOf pairs) (nodes.length + 1) [node] 0 (node :: s.1)
      if r.1.length > 1 then (r.2, s.2 ++ [r.1.insertionSort (· ≤ ·)])
      else (r.2, s.2)) ([], [])).2

/-- `evaluate_thresholds(hashes, thresholds)`: for each threshold, the
clusters and the projected delete count `sum(len(c) - 1 for c in
clusters)`.  The Python dict `results` becomes an association list in
threshold order. -/
def evaluate_thresholds (hashes : List (α × List Bool))
    (thresholds : List Nat) : List (Nat × List (List α) × Nat) :=
  thresholds.map (fun thr =>
    let pairs := sweepPairs (pairDistances hashes) thr
    let clusters := find_connected_components pairs
    (thr, clusters, (clusters.map (fun c => c.length - 1)).sum))

end ClusterSimilarImages

namespace RemoveDuplicates

variable {α : Type} [DecidableEq α] [LinearOrder α]

/-- `find_connected_components` of `remove_duplicates.py` (recursive DFS
with a shared visited set; components of size ≥ 2 appended as sorted
lists). -/
def find_connected_components (pairs : List (α × α)) : List (List α) :=
  let nodes := nodesOf pairs
  (nodes.foldl (fun (s : List α × List (List α)) node =>
    if node ∈ s.1 then s
    else
      let r := dfsAux (nbrsOf pairs) (nodes.length + 1) node (s.1, [])
      if r.2.length > 1 then (r.1, s.2 ++ [r.2.insertionSort (· ≤ ·)])
      else (r.1, s.2)) ([], [])).2

/-- `select_representative`: `min(cluster, key=lambda p: len(p.name))` —
Python's `min` keeps the first element whose key is minimal.  Identifiers
are bare filenames of the one working directory, so `p.name` is the
identifier itself.  `min([])` would raise; callers only pass clusters of
size ≥ 2, and we return `""` on `[]`.  `cluster_similar_images.py`
defines the identical function. -/
def select_representative (cluster : List String) : String :=
  match cluster with
  | [] => ""
  | x :: xs => xs.foldl (fun best p => if p.length < best.length then p else best) x

/-- The state of the working directory for `apply_threshold`: the
directory listing, the fingerprint function (`compute_dhash` with its
hash-size/preprocess parameters folded in; `none` = unreadable file) and
the set of paths whose removal raises. -/
structure ImageDir where
  entries : List String
  hashOf : String → Option (List Bool)
  locked : List String

/-- The result dict of `apply_threshold`. -/
structure ApplyResult where
  threshold : Nat
  clusters : List (List String)
  to_delete : List String
  to_keep : List String
  deleted_count : Nat
  failed_delete_count : Nat

/-- The extension allow-list of `remove_duplicates.py`. -/
def EXTENSIONS : List String :=
  [".jpg", ".jpeg", ".png", ".webp", ".heic",
   ".JPG", ".JPEG", ".PNG", ".WEBP", ".HEIC"]

/-- Globbing per extension, dropping macOS `._` sidecars, then sorting:
the file-scan step of `apply_threshold`. -/
def listFiles (d : ImageDir) : List String :=
  (d.entries.filter (fun f =>
    EXTENSIONS.any (fun e => charsStartWith f.data.reverse e.data.reverse) &&
      !(charsStartWith f.data "._".data))).insertionSort (· ≤ ·)

/-- The hash map: `{f: h for f in files if (h := compute_dhash(f)) is not
None}` — unreadable files are skipped, never aborting the scan. -/
def computeHashes (d : ImageDir) (files : List String) :
    List (String × List Bool) :=
  files.filterMap (fun f => (d.hashOf f).map (fun h => (f, h)))

/-- Deletion-loop state of `apply_threshold` (`deleted`, `failed_del`,
and the surviving directory entries). -/
structure DelCounters where
  deleted : Nat
  failed : Nat
  present : List String

/-- One `try: p.unlink(); deleted += 1 / except: failed_del += 1` step: a
missing or locked file raises and is counted as failed, the batch
continues. -/
def unlinkTry (locked : List String) (s : DelCounters) (p : String) :
    DelCounters :=
  if p ∈ s.present ∧ p ∉ locked then
    ⟨s.deleted + 1, s.failed, s.present.erase p⟩
  else ⟨s.deleted, s.failed + 1, s.present⟩

/-- `apply_threshold(image_dir, threshold, ..., delete)`: scan, hash,
build the ≤-threshold pair list, cluster, pick representatives, and
optionally delete.  The `NotADirectoryError` guard precedes all work in
the source and is outside this model (the directory is given).  Returns
the result dict and the directory state afterwards. -/
def apply_threshold (d : ImageDir) (threshold : Nat) (delete : Bool) :
    ApplyResult × ImageDir :=
  let files := listFiles d
  if files.length < 2 then (⟨threshold, [], [], [], 0, 0⟩, d)
  else
    let hashes := computeHashes d files
    let pairs := sweepPairs (pairDistances hashes) threshold
    let clusters := find_connected_components pairs
    let to_keep := clusters.map select_representative
    let to_delete :=
      clusters.flatMap (fun c => c.filter (fun p => decide (p ≠ select_representative c)))
    if delete ∧ to_delete ≠ [] then
      let fin := to_delete.foldl (unlinkTry d.locked) ⟨0, 0, d.entries⟩
      (⟨threshold, clusters, to_delete, to_keep, fin.deleted, fin.failed⟩,
        { d with entries := fin.present })
    else (⟨threshold, clusters, to_delete, to_keep, 0, 0⟩, d)

end RemoveDuplicates


/-- The specification of both `find_connected_components` variants: the
returned clusters are exactly the connected components of size ≥ 2 of the
undirected graph induced by the pairs (each cluster a full `connRel`
class, clusters mutually disjoint, and every vertex with a distinct
`connRel`-partner covered). -/
def IsClusterList {α : Type} [DecidableEq α] (pairs : List (α × α))
    (C : List (List α)) : Prop :=
  (∀ c ∈ C, c.Nodup ∧ 1 < c.length ∧
    ∀ x ∈ c, ∀ y, (y ∈ c ↔ connRel pairs x y)) ∧
  List.Pairwise (fun c d => ∀ x, x ∈ c → x ∉ d) C ∧
  ∀ x y, connRel pairs x y → x ≠ y → ∃ c ∈ C, x ∈ c

/-! ### Lemmas about the dict update -/

theorem lookupJ_map_replace (fs : List (String × JVal)) (k k' : String)
    (v : JVal) (hk : k' ≠ k) :
    lookupJ (fs.map (fun kv => if kv.1 = k then (kv.1, v) else kv)) k'
      = lookupJ fs k' := by
  induction fs with
  | nil => rfl
  | cons kv rest ih =>
    by_cases hkv : kv.1 = k
    · have hne : ¬ kv.1 = k' := fun hc => hk ((hc ▸ hkv : k' = k))
      simp [lookupJ, hkv, hne, Ne.symm hk, ih]
    · by_cases h2 : kv.1 = k'
      · simp [lookupJ, hkv, h2, hk]
      · simp [lookupJ, hkv, h2, ih]

theorem lookupJ_append_single_ne (fs : List (String × JVal)) (k k' : String)
    (v : JVal) (hk : k' ≠ k) :
    lookupJ (fs ++ [(k, v)]) k' = lookupJ fs k' := by
  induction fs with
  | nil => simp [lookupJ, Ne.symm hk]
  | cons kv rest ih =>
    by_cases h2 : kv.1 = k'
    · simp [lookupJ, h2]
    · simp [lookupJ, h2, ih]

theorem lookupJ_setKey_ne (fs : List (String × JVal)) (k k' : String)
    (v : JVal) (hk : k' ≠ k) : lookupJ (setKey fs k v) k' = lookupJ fs k' := by
  unfold setKey
  by_cases h : fs.any (fun kv => kv.1 = k)
  · simp only [h, if_true]
    exact lookupJ_map_replace fs k k' v hk
  · simp only [h, if_false]
    exact lookupJ_append_single_ne fs k k' v hk

theorem lookupJ_map_replace_self (fs : List (String × JVal)) (k : String)
    (v : JVal) (h : fs.any (fun kv => kv.1 = k) = true) :
    lookupJ (fs.map (fun kv => if kv.1 = k then (kv.1, v) else kv)) k
      = some v := by
  induction fs with
  | nil => simp at h
  | cons kv rest ih =>
    by_cases hkv : kv.1 = k
    · simp [lookupJ, hkv]
    · have h' : rest.any (fun kv => kv.1 = k) = true := by
        simp only [List.any_cons, Bool.or_eq_true, decide_eq_true_eq] at h
        rcases h with h | h
        · exact absurd h hkv
        · simpa using h
      simp [lookupJ, hkv, ih h']

theorem lookupJ_append_single_self (fs : List (String × JVal)) (k : String)
    (v : JVal) (h : fs.any (fun kv => kv.1 = k) = false) :
    lookupJ (fs ++ [(k, v)]) k = some v := by
  induction fs with
  | nil => simp [lookupJ]
  | cons kv rest ih =>
    simp only [List.any_cons, Bool.or_eq_false_iff, decide_eq_false_iff_not] at h
    simp [lookupJ, h.1, ih (by simpa using h.2)]

theorem lookupJ_setKey_self (fs : List (String × JVal)) (k : String)
    (v : JVal) : lookupJ (setKey fs k v) k = some v := by
  unfold setKey
  by_cases h : fs.any (fun kv => kv.1 = k)
  · simp only [h, if_true]
    exact lookupJ_map_replace_self fs k v h
  · simp only [h, if_false]
    exact lookupJ_append_single_self fs k v (by rwa [Bool.not_eq_true] at h)


/-! ## Claim C9 — sidecar shape preservation -/

/-- C9: a sidecar successfully loaded as a bare list is written back as a
bare list; a sidecar loaded as an object with an `images` list is written
back as an object in which every top-level field other than `images` is
preserved unchanged (and `images` carries the new list). -/
theorem spec_C9_sidecar_shape (c orig : JVal) (imgs0 imgs : List JVal)
    (hload : load_image_json (some c) = Except.ok (orig, imgs0)) :
    (∀ xs, c = JVal.jarr xs → save_image_json orig imgs = JVal.jarr imgs) ∧
    (∀ fs, c = JVal.jobj fs →
      ∃ fs', save_image_json orig imgs = JVal.jobj fs' ∧
        lookupJ fs' "images" = some (JVal.jarr imgs) ∧
        ∀ k, k ≠ "images" → lookupJ fs' k = lookupJ fs k) := by
  have horig : orig = c := by
    cases c with
    | jobj fs =>
      simp only [load_image_json, Except.ok.injEq, Prod.mk.injEq] at hload
      exact hload.1.symm
    | jarr xs =>
      simp only [load_image_json, Except.ok.injEq, Prod.mk.injEq] at hload
      exact hload.1.symm
    | jnull => simp [load_image_json] at hload
    | jbool b => simp [load_image_json] at hload
    | jnum n => simp [load_image_json] at hload
    | jstr s => simp [load_image_json] at hload
  subst horig
  constructor
  · intro xs hx
    subst hx
    rfl
  · intro fs hx
    subst hx
    refine ⟨setKey fs "images" (JVal.jarr imgs), rfl, ?_, ?_⟩
    · exact lookupJ_setKey_self fs "images" (JVal.jarr imgs)
    · intro k hk
      exact lookupJ_setKey_ne fs "images" k (JVal.jarr imgs) hk

/-- Witness for C9 at a concrete sidecar of each of the two shapes. -/
theorem spec_C9_sidecar_shape_witness :
    (save_image_json (JVal.jarr [JVal.jstr "r"]) [] = JVal.jarr []) ∧
    (∃ fs', save_image_json
        (JVal.jobj [("other", JVal.jnum 7), ("images", JVal.jarr [JVal.jstr "r"])])
        [] = JVal.jobj fs' ∧
      lookupJ fs' "images" = some (JVal.jarr []) ∧
      ∀ k, k ≠ "images" →
        lookupJ fs' k
          = lookupJ [("other", JVal.jnum 7), ("images", JVal.jarr [JVal.jstr "r"])] k) :=
  ⟨(spec_C9_sidecar_shape (JVal.jarr [JVal.jstr "r"]) (JVal.jarr [JVal.jstr "r"])
      [JVal.jstr "r"] [] rfl).1 _ rfl,
   (spec_C9_sidecar_shape
      (JVal.jobj [("other", JVal.jnum 7), ("images", JVal.jarr [JVal.jstr "r"])])
      (JVal.jobj [("other", JVal.jnum 7), ("images", JVal.jarr [JVal.jstr "r"])])
      [JVal.jstr "r"] [] rfl).2 _ rfl⟩


/-! ### Behaviour of the deletion-coordinator loop -/

theorem unlinkTarget_ok_frame {locked : List String} {st : LoopSt}
    {rp : String} {st' : LoopSt}
    (h : unlinkTarget locked st rp = Except.ok st') :
    st'.kept = st.kept ∧ st'.removed = st.removed := by
  unfold unlinkTarget at h
  split at h
  · split at h
    · simp at h
    · cases h; exact ⟨rfl, rfl⟩
  · cases h; exact ⟨rfl, rfl⟩

theorem unlinkField_ok_frame {base : String} {locked : List String}
    {item : JVal} {key : String} {st st' : LoopSt}
    (h : unlinkField base locked item key st = Except.ok st') :
    st'.kept = st.kept ∧ st'.removed = st.removed := by
  unfold unlinkField at h
  split at h
  · exact unlinkTarget_ok_frame h
  · cases h; exact ⟨rfl, rfl⟩

theorem deleteItemFiles_ok_frame {base : String} {locked : List String}
    {item : JVal} {st st' : LoopSt}
    (h : deleteItemFiles base locked item st = Except.ok st') :
    st'.kept = st.kept ∧ st'.removed = st.removed := by
  unfold deleteItemFiles at h
  split at h
  · simp at h
  · rename_i st1 heq1
    have h1 := unlinkField_ok_frame heq1
    have h2 := unlinkField_ok_frame h
    exact ⟨h2.1.trans h1.1, h2.2.trans h1.2⟩

/-- A completed batch keeps exactly the unmatched records, in order, and
counts exactly the matched ones. -/
theorem processItems_ok_kept {base : String} {tps locked : List String}
    {df : Bool} :
    ∀ (items : List JVal) (st st' : LoopSt),
      processItems base tps locked df items st = Except.ok st' →
      st'.kept = st.kept ++ items.filter (fun it => !(should_remove base tps it)) ∧
      st'.removed = st.removed + items.countP (should_remove base tps)
  | [], st, st', h => by
    cases h
    simp
  | item :: rest, st, st', h => by
    by_cases hp : should_remove base tps item
    · rw [show processItems base tps locked df (item :: rest) st =
          (if df then
            match deleteItemFiles base locked item
                { st with removed := st.removed + 1 } with
            | Except.error e => Except.error e
            | Except.ok st2 => processItems base tps locked df rest st2
          else processItems base tps locked df rest
            { st with removed := st.removed + 1 }) from by
        simp [processItems, hp]] at h
      by_cases hdf : df
      · rw [if_pos hdf] at h
        split at h
        · simp at h
        · rename_i st2 heq
          have hfr := deleteItemFiles_ok_frame heq
          have ih := processItems_ok_kept rest st2 st' h
          refine ⟨?_, ?_⟩
          · rw [ih.1, hfr.1]
            simp [List.filter_cons, hp]
          · rw [ih.2, hfr.2, List.countP_cons]
            simp [hp]
            omega
      · rw [if_neg hdf] at h
        have ih := processItems_ok_kept rest _ st' h
        refine ⟨?_, ?_⟩
        · rw [ih.1]
          simp [List.filter_cons, hp]
        · rw [ih.2, List.countP_cons]
          simp [hp]
          omega
    · rw [show processItems base tps locked df (item :: rest) st =
          processItems base tps locked df rest
            { st with kept := st.kept ++ [item] } from by
        simp [processItems, hp]] at h
      have ih := processItems_ok_kept rest _ st' h
      refine ⟨?_, ?_⟩
      · rw [ih.1]
        simp [List.filter_cons, hp]
      · rw [ih.2, List.countP_cons]
        simp [hp]

/-- With `delete_files=False` the loop only filters records: counts of
file operations, the disk and the op trace are untouched. -/
theorem processItems_false_eq (base : String) (tps locked : List String) :
    ∀ (items : List JVal) (st : LoopSt),
      processItems base tps locked false items st =
        Except.ok ⟨st.kept ++ items.filter (fun it => !(should_remove base tps it)),
          st.removed + items.countP (should_remove base tps),
          st.deleted, st.missing, st.disk, st.ops⟩
  | [], st => by simp [processItems]
  | item :: rest, st => by
    by_cases hp : should_remove base tps item
    · rw [show processItems base tps locked false (item :: rest) st =
          processItems base tps locked false rest
            { st with removed := st.removed + 1 } from by
        simp [processItems, hp]]
      rw [processItems_false_eq base tps locked rest _]
      simp [List.filter_cons, List.countP_cons, hp]
      omega
    · rw [show processItems base tps locked false (item :: rest) st =
          processItems base tps locked false rest
            { st with kept := st.kept ++ [item] } from by
        simp [processItems, hp]]
      rw [processItems_false_eq base tps locked rest _]
      simp [List.filter_cons, List.countP_cons, hp]

/-- When no record matches, the loop is the identity apart from keeping
every record. -/
theorem processItems_all_unmatched (base : String) (tps locked : List String)
    (df : Bool) :
    ∀ (items : List JVal) (st : LoopSt),
      (∀ it ∈ items, should_remove base tps it = false) →
      processItems base tps locked df items st =
        Except.ok { st with kept := st.kept ++ items }
  | [], st, _ => by simp [processItems]
  | item :: rest, st, h => by
    have hp : should_remove base tps item = false :=
      h item (List.mem_cons_self item rest)
    rw [show processItems base tps locked df (item :: rest) st =
        processItems base tps locked df rest
          { st with kept := st.kept ++ [item] } from by
      simp [processItems, hp]]
    rw [processItems_all_unmatched base tps locked df rest _
      (fun it hit => h it (List.mem_cons_of_mem item hit))]
    simp

/-- `unlink` raises only on a locked *present* file; if no locked path is
present every attempt succeeds or is counted missing, and the
locked/present disjointness survives (the disk only shrinks). -/
theorem unlinkTarget_disjoint_ok {locked : List String} {st : LoopSt}
    (rp : String) (hd : ∀ q ∈ locked, q ∉ st.disk) :
    ∃ st', unlinkTarget locked st rp = Except.ok st' ∧
      ∀ q ∈ locked, q ∉ st'.disk := by
  unfold unlinkTarget
  by_cases h1 : rp ∈ st.disk
  · have h2 : rp ∉ locked := fun hc => hd rp hc h1
    rw [if_pos h1, if_neg h2]
    refine ⟨_, rfl, ?_⟩
    intro q hq hmem
    exact hd q hq (List.mem_of_mem_erase hmem)
  · rw [if_neg h1]
    exact ⟨_, rfl, hd⟩

theorem unlinkField_disjoint_ok (base : String) (locked : List String)
    (item : JVal) (key : String) (st : LoopSt)
    (hd : ∀ q ∈ locked, q ∉ st.disk) :
    ∃ st', unlinkField base locked item key st = Except.ok st' ∧
      ∀ q ∈ locked, q ∉ st'.disk := by
  unfold unlinkField
  cases hp : getPathField item key with
  | none => exact ⟨st, rfl, hd⟩
  | some s => exact unlinkTarget_disjoint_ok (resolvePath base s) hd

theorem deleteItemFiles_disjoint_ok (base : String) (locked : List String)
    (item : JVal) (st : LoopSt) (hd : ∀ q ∈ locked, q ∉ st.disk) :
    ∃ st', deleteItemFiles base locked item st = Except.ok st' ∧
      ∀ q ∈ locked, q ∉ st'.disk := by
  obtain ⟨st1, h1, h2⟩ := unlinkField_disjoint_ok base locked item "path" st hd
  obtain ⟨st2, h3, h4⟩ :=
    unlinkField_disjoint_ok base locked item "thumbnail" st1 h2
  refine ⟨st2, ?_, h4⟩
  unfold deleteItemFiles
  rw [h1]
  exact h3

/-- A file absent from disk is never an error: if no locked path is
present, the whole batch completes. -/
theorem processItems_disjoint_ok (base : String) (tps locked : List String)
    (df : Bool) :
    ∀ (items : List JVal) (st : LoopSt),
      (∀ q ∈ locked, q ∉ st.disk) →
      ∃ st', processItems base tps locked df items st = Except.ok st' ∧
        ∀ q ∈ locked, q ∉ st'.disk
  | [], st, hd => ⟨st, rfl, hd⟩
  | item :: rest, st, hd => by
    by_cases hp : should_remove base tps item
    · by_cases hdf : df
      · subst hdf
        obtain ⟨st2, h1, h2⟩ := deleteItemFiles_disjoint_ok base locked item
          { st with removed := st.removed + 1 } hd
        obtain ⟨st', h3, h4⟩ :=
          processItems_disjoint_ok base tps locked true rest st2 h2
        exact ⟨st', by simp [processItems, hp, h1, h3], h4⟩
      · have hdf' : df = false := by
          cases df
          · rfl
          · exact absurd rfl hdf
        subst hdf'
        obtain ⟨st', h3, h4⟩ := processItems_disjoint_ok base tps locked false
          rest { st with removed := st.removed + 1 } hd
        exact ⟨st', by simp [processItems, hp, h3], h4⟩
    · obtain ⟨st', h3, h4⟩ := processItems_disjoint_ok base tps locked df
        rest { st with kept := st.kept ++ [item] } hd
      exact ⟨st', by simp [processItems, hp, h3], h4⟩

/-! ### The op trace of the loop: unlinks only, and aborts carry no write -/

theorem unlinkTarget_error_state {locked : List String} {st : LoopSt}
    {rp : String} {m : String} {st' : LoopSt}
    (h : unlinkTarget locked st rp = Except.error (m, st')) : st' = st := by
  unfold unlinkTarget at h
  split at h
  · split at h
    · cases h; rfl
    · simp at h
  · simp at h

theorem unlinkTarget_ok_ops {locked : List String} {st : LoopSt}
    {rp : String} {st' : LoopSt}
    (h : unlinkTarget locked st rp = Except.ok st') :
    ∀ op ∈ st'.ops, op ∈ st.ops ∨ ∃ q, op = FsOp.unlink q := by
  unfold unlinkTarget at h
  split at h
  · split at h
    · simp at h
    · cases h
      intro op hop
      simp only [List.mem_append, List.mem_singleton] at hop
      rcases hop with hop | hop
      · exact Or.inl hop
      · exact Or.inr ⟨rp, hop⟩
  · cases h
    intro op hop
    exact Or.inl hop

theorem unlinkField_error_state {base : String} {locked : List String}
    {item : JVal} {key : String} {st : LoopSt} {m : String} {st' : LoopSt}
    (h : unlinkField base locked item key st = Except.error (m, st')) :
    st' = st := by
  unfold unlinkField at h
  split at h
  · exact unlinkTarget_error_state h
  · simp at h

theorem unlinkField_ok_ops {base : String} {locked : List String}
    {item : JVal} {key : String} {st st' : LoopSt}
    (h : unlinkField base locked item key st = Except.ok st') :
    ∀ op ∈ st'.ops, op ∈ st.ops ∨ ∃ q, op = FsOp.unlink q := by
  unfold unlinkField at h
  split at h
  · exact unlinkTarget_ok_ops h
  · cases h; exact fun op hop => Or.inl hop

theorem deleteItemFiles_ops {base : String} {locked : List String}
    {item : JVal} {st st' : LoopSt}
    (h : deleteItemFiles base locked item st = Except.ok st' ∨
      ∃ m, deleteItemFiles base locked item st = Except.error (m, st')) :
    ∀ op ∈ st'.ops, op ∈ st.ops ∨ ∃ q, op = FsOp.unlink q := by
  unfold deleteItemFiles at h
  rcases h with h | ⟨m, h⟩
  · split at h
    · simp at h
    · rename_i st1 heq1
      intro op hop
      rcases unlinkField_ok_ops h op hop with h2 | h2
      · exact unlinkField_ok_ops heq1 op h2
      · exact Or.inr h2
  · split at h
    · rename_i heq1
      cases h
      cases unlinkField_error_state heq1
      exact fun op hop => Or.inl hop
    · rename_i st1 heq1
      intro op hop
      cases unlinkField_error_state h
      rcases unlinkField_ok_ops heq1 op hop with h2 | h2
      · exact Or.inl h2
      · exact Or.inr h2

theorem processItems_ops (base : String) (tps locked : List String)
    (df : Bool) :
    ∀ (items : List JVal) (st st' : LoopSt),
      (processItems base tps locked df items st = Except.ok st' ∨
        ∃ m, processItems base tps locked df items st = Except.error (m, st')) →
      ∀ op ∈ st'.ops, op ∈ st.ops ∨ ∃ q, op = FsOp.unlink q
  | [], st, st', h => by
    rcases h with h | ⟨m, h⟩
    · cases h; exact fun op hop => Or.inl hop
    · simp [processItems] at h
  | item :: rest, st, st', h => by
    by_cases hp : should_remove base tps item
    · by_cases hdf : df
      · subst hdf
        have hred : processItems base tps locked true (item :: rest) st =
            match deleteItemFiles base locked item
                { st with removed := st.removed + 1 } with
            | Except.error e => Except.error e
            | Except.ok st2 => processItems base tps locked true rest st2 := by
          simp [processItems, hp]
        rw [hred] at h
        rcases hdel : deleteItemFiles base locked item
            { st with removed := st.removed + 1 } with e | st2
        · rw [hdel] at h
          rcases h with h | ⟨m, h⟩
          · simp at h
          · cases h
            intro op hop
            have step := deleteItemFiles_ops (Or.inr ⟨m, hdel⟩ :
              deleteItemFiles base locked item
                  { st with removed := st.removed + 1 } = Except.ok st' ∨
                ∃ m', deleteItemFiles base locked item
                  { st with removed := st.removed + 1 }
                    = Except.error (m', st'))
            exact step op hop
        · rw [hdel] at h
          have step1 := deleteItemFiles_ops
            (Or.inl hdel :
              deleteItemFiles base locked item
                { st with removed := st.removed + 1 } = Except.ok st2 ∨ _)
          have step2 := processItems_ops base tps locked true rest st2 st' h
          intro op hop
          rcases step2 op hop with h2 | h2
          · exact step1 op h2
          · exact Or.inr h2
      · have hdf' : df = false := by
          cases df
          · rfl
          · exact absurd rfl hdf
        subst hdf'
        have hred : processItems base tps locked false (item :: rest) st =
            processItems base tps locked false rest
              { st with removed := st.removed + 1 } := by
          simp [processItems, hp]
        rw [hred] at h
        exact processItems_ops base tps locked false rest
          { st with removed := st.removed + 1 } st' h
    · have hred : processItems base tps locked df (item :: rest) st =
          processItems base tps locked df rest
            { st with kept := st.kept ++ [item] } := by
        simp [processItems, hp]
      rw [hred] at h
      exact processItems_ops base tps locked df rest
        { st with kept := st.kept ++ [item] } st' h

/-! ### Reduction of a full coordinator run -/

/-- Full-run equation of `remove_paths_from_image_json` with
`delete_files=False`. -/
theorem remove_paths_false_run (jp : String) (c orig : JVal)
    (images : List JVal) (tps locked : List String) (base : String)
    (disk : List String)
    (hload : load_image_json (some c) = Except.ok (orig, images)) :
    remove_paths_from_image_json jp (some c) tps locked base false disk =
      (if 0 < images.countP (should_remove base tps) then
        Except.ok ⟨images.countP (should_remove base tps), 0, 0,
          save_image_json orig
            (images.filter (fun it => !(should_remove base tps it))),
          true, disk,
          [FsOp.write jp (save_image_json orig
            (images.filter (fun it => !(should_remove base tps it))))]⟩
      else Except.ok ⟨images.countP (should_remove base tps), 0, 0,
        orig, false, disk, []⟩) := by
  have hpr := processItems_false_eq base tps locked images ⟨[], 0, 0, 0, disk, []⟩
  simp only [remove_paths_from_image_json, hload, hpr]
  by_cases hc : 0 < images.countP (should_remove base tps)
  · rw [if_pos (by simpa using hc), if_pos hc]
    simp
  · rw [if_neg (by simpa using hc), if_neg hc]
    simp

/-! ## Claim C10 — `delete_files=False` still rewrites the sidecar -/

/-- C10: with `delete_files=False`, matching records are still removed
from the sidecar and the sidecar is rewritten whenever at least one
record matched; only the on-disk deletions are suppressed (disk untouched,
no unlink performed, zero deleted/missing counts). -/
theorem spec_C10_flag_suppresses_only_unlinks (jp : String) (c orig : JVal)
    (images : List JVal) (tps locked : List String) (base : String)
    (disk : List String)
    (hload : load_image_json (some c) = Except.ok (orig, images)) :
    ∃ res, remove_paths_from_image_json jp (some c) tps locked base false disk
        = Except.ok res ∧
      res.removed_from_json = images.countP (should_remove base tps) ∧
      (res.wrote = true ↔ 0 < images.countP (should_remove base tps)) ∧
      (0 < images.countP (should_remove base tps) →
        res.sidecar = save_image_json orig
          (images.filter (fun it => !(should_remove base tps it)))) ∧
      res.disk = disk ∧ res.deleted_files = 0 ∧ res.missing_files = 0 ∧
      ∀ q, FsOp.unlink q ∉ res.ops := by
  rw [remove_paths_false_run jp c orig images tps locked base disk hload]
  by_cases hc : 0 < images.countP (should_remove base tps)
  · rw [if_pos hc]
    refine ⟨_, rfl, rfl, ?_, ?_, rfl, rfl, rfl, ?_⟩
    · exact iff_of_true rfl hc
    · intro _
      rfl
    · intro q hq
      simp only [List.mem_singleton] at hq
      exact FsOp.noConfusion hq
  · rw [if_neg hc]
    refine ⟨_, rfl, rfl, ?_, ?_, rfl, rfl, rfl, ?_⟩
    · exact iff_of_false (by simp) hc
    · intro h
      exact absurd h hc
    · intro q hq
      simp at hq

/-- Witness for C10: one bare-list sidecar record matching the target by
its `path` field; the record is dropped and the sidecar rewritten, the
disk untouched. -/
theorem spec_C10_flag_suppresses_only_unlinks_witness :
    ∃ res, remove_paths_from_image_json "/d/image_data.json"
        (some (JVal.jarr [JVal.jobj [("path", JVal.jstr "a.jpg")]]))
        ["/d/a.jpg"] [] "/d" false ["/d/a.jpg"] = Except.ok res ∧
      res.removed_from_json =
        List.countP (should_remove "/d" ["/d/a.jpg"])
          [JVal.jobj [("path", JVal.jstr "a.jpg")]] ∧
      (res.wrote = true ↔
        0 < List.countP (should_remove "/d" ["/d/a.jpg"])
          [JVal.jobj [("path", JVal.jstr "a.jpg")]]) ∧
      (0 < List.countP (should_remove "/d" ["/d/a.jpg"])
          [JVal.jobj [("path", JVal.jstr "a.jpg")]] →
        res.sidecar = save_image_json
          (JVal.jarr [JVal.jobj [("path", JVal.jstr "a.jpg")]])
          (List.filter (fun it => !should_remove "/d" ["/d/a.jpg"] it)
            [JVal.jobj [("path", JVal.jstr "a.jpg")]])) ∧
      res.disk = ["/d/a.jpg"] ∧ res.deleted_files = 0 ∧
      res.missing_files = 0 ∧ ∀ q, FsOp.unlink q ∉ res.ops :=
  spec_C10_flag_suppresses_only_unlinks "/d/image_data.json"
    (JVal.jarr [JVal.jobj [("path", JVal.jstr "a.jpg")]])
    (JVal.jarr [JVal.jobj [("path", JVal.jstr "a.jpg")]])
    [JVal.jobj [("path", JVal.jstr "a.jpg")]]
    ["/d/a.jpg"] [] "/d" ["/d/a.jpg"] rfl

/-! ## Claim C2 — conditional but non-atomic sidecar write -/

/-- C2 (amended): after processing the whole batch the filtered sidecar
is written back only if at least one record was removed — but the write
is a single direct overwrite of the sidecar path (`open(json_path, "w")`
+ `json.dump`); no temporary file is written and nothing is renamed, so
the temp-file-plus-rename atomicity claimed by the spec is absent. -/
theorem spec_C2_conditional_direct_write (jp : String) (c : JVal)
    (tps locked : List String) (base : String) (df : Bool)
    (disk : List String) (res : RemoveResult)
    (h : remove_paths_from_image_json jp (some c) tps locked base df disk
      = Except.ok res) :
    (res.wrote = true ↔ 0 < res.removed_from_json) ∧
    ((∃ v, FsOp.write jp v ∈ res.ops) ↔ 0 < res.removed_from_json) ∧
    (∀ s t, FsOp.rename s t ∉ res.ops) ∧
    (∀ p v, FsOp.write p v ∈ res.ops → p = jp) := by
  unfold remove_paths_from_image_json at h
  rcases hl : load_image_json (some c) with e | pr
  · rw [hl] at h
    simp at h
  · obtain ⟨orig, images⟩ := pr
    simp only [hl] at h
    rcases hpr : processItems base tps locked df images
        ⟨[], 0, 0, 0, disk, []⟩ with e | st
    · rw [hpr] at h
      simp at h
    · simp only [hpr] at h
      have hops := processItems_ops base tps locked df images
        ⟨[], 0, 0, 0, disk, []⟩ st (Or.inl hpr)
      have hunl : ∀ op ∈ st.ops, ∃ q, op = FsOp.unlink q := by
        intro op hop
        rcases hops op hop with h2 | h2
        · simp at h2
        · exact h2
      by_cases hc : st.removed > 0
      · rw [if_pos hc] at h
        cases h
        refine ⟨iff_of_true rfl hc, ?_, ?_, ?_⟩
        · refine iff_of_true ⟨save_image_json orig st.kept, ?_⟩ hc
          simp
        · intro s t hmem
          simp only [List.mem_append, List.mem_singleton] at hmem
          rcases hmem with hmem | hmem
          · obtain ⟨q, hq⟩ := hunl _ hmem
            exact FsOp.noConfusion hq
          · exact FsOp.noConfusion hmem
        · intro p v hmem
          simp only [List.mem_append, List.mem_singleton] at hmem
          rcases hmem with hmem | hmem
          · obtain ⟨q, hq⟩ := hunl _ hmem
            exact absurd hq (by intro hq; exact FsOp.noConfusion hq)
          · cases hmem
            rfl
      · rw [if_neg hc] at h
        cases h
        refine ⟨iff_of_false (by simp) hc, iff_of_false ?_ hc, ?_, ?_⟩
        · rintro ⟨v, hv⟩
          obtain ⟨q, hq⟩ := hunl _ hv
          exact FsOp.noConfusion hq
        · intro s t hmem
          obtain ⟨q, hq⟩ := hunl _ hmem
          exact FsOp.noConfusion hq
        · intro p v hmem
          obtain ⟨q, hq⟩ := hunl _ hmem
          exact FsOp.noConfusion hq

/-- Witness for C2's amended theorem at a one-record run that removes the
record: the sidecar is rewritten by a single direct write. -/
theorem spec_C2_conditional_direct_write_witness :
    (true = true ↔ 0 < 1) ∧
    ((∃ v, FsOp.write "/d/image_data.json" v ∈
        [FsOp.write "/d/image_data.json" (JVal.jarr [])]) ↔ 0 < 1) ∧
    (∀ s t, FsOp.rename s t ∉ [FsOp.write "/d/image_data.json" (JVal.jarr [])]) ∧
    (∀ p v, FsOp.write p v ∈ [FsOp.write "/d/image_data.json" (JVal.jarr [])] →
      p = "/d/image_data.json") :=
  spec_C2_conditional_direct_write "/d/image_data.json"
    (JVal.jarr [JVal.jobj [("path", JVal.jstr "a.jpg")]])
    ["/d/a.jpg"] [] "/d" false ["/d/a.jpg"]
    ⟨1, 0, 0, JVal.jarr [], true, ["/d/a.jpg"],
      [FsOp.write "/d/image_data.json" (JVal.jarr [])]⟩ rfl

/-- C2, as stated, is false: in this one-record run a record is removed
and the sidecar rewritten, yet no temporary file is written and no rename
is performed — the write is not atomic in the claimed sense. -/
theorem spec_C2_counterexample :
    ∃ res, remove_paths_from_image_json "/d/image_data.json"
        (some (JVal.jarr [JVal.jobj [("path", JVal.jstr "a.jpg")]]))
        ["/d/a.jpg"] [] "/d" false ["/d/a.jpg"] = Except.ok res ∧
      0 < res.removed_from_json ∧ res.wrote = true ∧
      ¬ ∃ tmp v, tmp ≠ "/d/image_data.json" ∧ FsOp.write tmp v ∈ res.ops ∧
          FsOp.rename tmp "/d/image_data.json" ∈ res.ops := by
  refine ⟨⟨1, 0, 0, JVal.jarr [], true, ["/d/a.jpg"],
    [FsOp.write "/d/image_data.json" (JVal.jarr [])]⟩, rfl, Nat.one_pos, rfl, ?_⟩
  rintro ⟨tmp, v, hne, hw, hr⟩
  simp only [List.mem_singleton] at hr
  exact FsOp.noConfusion hr

/-- `load_image_json` always returns the parsed value itself as the
original structure. -/
theorem load_image_json_orig {c orig : JVal} {imgs : List JVal}
    (h : load_image_json (some c) = Except.ok (orig, imgs)) : orig = c := by
  cases c with
  | jobj fs =>
    simp only [load_image_json, Except.ok.injEq, Prod.mk.injEq] at h
    exact h.1.symm
  | jarr xs =>
    simp only [load_image_json, Except.ok.injEq, Prod.mk.injEq] at h
    exact h.1.symm
  | jnull => simp [load_image_json] at h
  | jbool b => simp [load_image_json] at h
  | jnum n => simp [load_image_json] at h
  | jstr s => simp [load_image_json] at h

/-- A run whose sidecar contains no matching record is a complete no-op
apart from returning the zero summary. -/
theorem remove_paths_unmatched_run (jp : String) (c orig : JVal)
    (images : List JVal) (tps locked : List String) (base : String)
    (df : Bool) (disk : List String)
    (hload : load_image_json (some c) = Except.ok (orig, images))
    (hall : ∀ it ∈ images, should_remove base tps it = false) :
    remove_paths_from_image_json jp (some c) tps locked base df disk
      = Except.ok ⟨0, 0, 0, orig, false, disk, []⟩ := by
  have hpr := processItems_all_unmatched base tps locked df images
    (⟨[], 0, 0, 0, disk, []⟩ : LoopSt) hall
  simp only [remove_paths_from_image_json, hload, hpr]
  simp

/-! ## Claim C5 — idempotence of the deletion step -/

/-- C5 (amended): after a first successful sidecar-aware application, a
second application of the same decision set removes zero records, deletes
zero files, reports zero `missing_files` (the matched records are gone
from the sidecar, so no unlink is even attempted — not "all targets
missing" as the spec claims), raises no error, and leaves the sidecar and
disk unchanged.  Separately, a file absent from disk never raises: the
batch loop can only raise on a locked *present* file. -/
theorem spec_C5_second_run_noop (jp : String) (c : JVal)
    (tps locked : List String) (base : String) (disk : List String)
    (res1 : RemoveResult)
    (h1 : remove_paths_from_image_json jp (some c) tps locked base true disk
      = Except.ok res1) :
    (∃ res2, remove_paths_from_image_json jp (some res1.sidecar) tps locked
        base true res1.disk = Except.ok res2 ∧
      res2.removed_from_json = 0 ∧ res2.deleted_files = 0 ∧
      res2.missing_files = 0 ∧ res2.wrote = false ∧
      res2.sidecar = res1.sidecar ∧ res2.disk = res1.disk ∧ res2.ops = []) ∧
    (∀ (tps0 locked0 : List String) (base0 : String) (df0 : Bool)
        (items : List JVal) (st : LoopSt),
      (∀ q ∈ locked0, q ∉ st.disk) →
      ∃ st', processItems base0 tps0 locked0 df0 items st = Except.ok st') := by
  refine ⟨?_, ?_⟩
  · unfold remove_paths_from_image_json at h1
    rcases hl : load_image_json (some c) with e | pr
    · rw [hl] at h1
      simp at h1
    · obtain ⟨orig, images⟩ := pr
      simp only [hl] at h1
      rcases hpr : processItems base tps locked true images
          ⟨[], 0, 0, 0, disk, []⟩ with e | st
      · rw [hpr] at h1
        simp at h1
      · simp only [hpr] at h1
        have hkr := processItems_ok_kept images _ st hpr
        by_cases hc : st.removed > 0
        · rw [if_pos hc] at h1
          cases h1
          have hkept : ∀ it ∈ st.kept, should_remove base tps it = false := by
            intro it hit
            rw [hkr.1] at hit
            simp only [List.nil_append, List.mem_filter,
              Bool.not_eq_eq_eq_not, Bool.not_true] at hit
            simpa using hit.2
          have hload2 : load_image_json (some (save_image_json orig st.kept))
              = Except.ok (save_image_json orig st.kept, st.kept) := by
            cases orig with
            | jobj fs =>
              simp [save_image_json, load_image_json, getImages,
                lookupJ_setKey_self]
            | jarr xs => simp [save_image_json, load_image_json]
            | jnull => simp [save_image_json, load_image_json]
            | jbool b => simp [save_image_json, load_image_json]
            | jnum n => simp [save_image_json, load_image_json]
            | jstr s => simp [save_image_json, load_image_json]
          exact ⟨_, remove_paths_unmatched_run jp _ _ st.kept tps locked base
            true st.disk hload2 hkept, rfl, rfl, rfl, rfl, rfl, rfl, rfl⟩
        · rw [if_neg hc] at h1
          cases h1
          have hcnt : images.countP (should_remove base tps) = 0 := by
            have h2 := hkr.2
            omega
          have hall : ∀ it ∈ images, should_remove base tps it = false := by
            intro it hit
            have := (List.countP_eq_zero.mp hcnt) it hit
            simpa using this
          have horig := load_image_json_orig hl
          subst horig
          exact ⟨_, remove_paths_unmatched_run jp orig orig images tps locked
            base true st.disk hl hall, rfl, rfl, rfl, rfl, rfl, rfl, rfl⟩
  · intro tps0 locked0 base0 df0 items st hd
    obtain ⟨st', h, _⟩ := processItems_disjoint_ok base0 tps0 locked0 df0
      items st hd
    exact ⟨st', h⟩

/-- Witness for C5's amended theorem: a one-record first run deletes the
file and drops the record; the second run is a no-op. -/
theorem spec_C5_second_run_noop_witness :
    (∃ res2, remove_paths_from_image_json "/d/image_data.json"
        (some (JVal.jarr [])) ["/d/a.jpg"] [] "/d" true [] = Except.ok res2 ∧
      res2.removed_from_json = 0 ∧ res2.deleted_files = 0 ∧
      res2.missing_files = 0 ∧ res2.wrote = false ∧
      res2.sidecar = JVal.jarr [] ∧ res2.disk = [] ∧ res2.ops = []) ∧
    (∀ (tps0 locked0 : List String) (base0 : String) (df0 : Bool)
        (items : List JVal) (st : LoopSt),
      (∀ q ∈ locked0, q ∉ st.disk) →
      ∃ st', processItems base0 tps0 locked0 df0 items st = Except.ok st') :=
  spec_C5_second_run_noop "/d/image_data.json"
    (JVal.jarr [JVal.jobj [("path", JVal.jstr "a.jpg")]])
    ["/d/a.jpg"] [] "/d" ["/d/a.jpg"]
    ⟨1, 1, 0, JVal.jarr [], true, [],
      [FsOp.unlink "/d/a.jpg", FsOp.write "/d/image_data.json" (JVal.jarr [])]⟩
    rfl

/-- C5, as stated, is false: the spec says the second run reports every
target as `filesMissing`, but after the first run the matched record is
gone from the sidecar, so the second run reports `missing_files = 0`
(for 1 target), not 1. -/
theorem spec_C5_counterexample :
    ∃ res1 res2,
      remove_paths_from_image_json "/d/image_data.json"
        (some (JVal.jarr [JVal.jobj [("path", JVal.jstr "a.jpg")]]))
        ["/d/a.jpg"] [] "/d" true ["/d/a.jpg"] = Except.ok res1 ∧
      res1.deleted_files = 1 ∧
      remove_paths_from_image_json "/d/image_data.json" (some res1.sidecar)
        ["/d/a.jpg"] [] "/d" true res1.disk = Except.ok res2 ∧
      res2.missing_files = 0 ∧ ["/d/a.jpg"].length = 1 := by
  refine ⟨⟨1, 1, 0, JVal.jarr [], true, [],
    [FsOp.unlink "/d/a.jpg", FsOp.write "/d/image_data.json" (JVal.jarr [])]⟩,
    ⟨0, 0, 0, JVal.jarr [], false, [], []⟩, rfl, rfl, rfl, rfl, rfl⟩

/-! ## Claim C4 — per-file failure semantics -/

/-- The direct deletion loop of `apply_threshold` counts every target as
either deleted or failed. -/
theorem unlinkTry_foldl_count (locked : List String) :
    ∀ (l : List String) (s : RemoveDuplicates.DelCounters),
      (l.foldl (RemoveDuplicates.unlinkTry locked) s).deleted +
        (l.foldl (RemoveDuplicates.unlinkTry locked) s).failed
        = s.deleted + s.failed + l.length
  | [], s => by simp
  | p :: l, s => by
    rw [List.foldl_cons, unlinkTry_foldl_count locked l _]
    by_cases h : p ∈ s.present ∧ p ∉ locked
    · simp [RemoveDuplicates.unlinkTry, h]
      omega
    · simp [RemoveDuplicates.unlinkTry, h]
      omega

/-- C4 (amended): in `apply_threshold`'s direct deletion the claim holds —
every target in the batch is processed and each per-file failure is
counted in `failed_delete_count` (deleted + failed = batch size, the run
always returns a summary).  In `remove_paths_from_image_json`, however, an
unlink error on a present file propagates and aborts the batch before the
sidecar is written (the aborted state contains no write op). -/
theorem spec_C4_per_file_failures :
    (∀ (d : RemoveDuplicates.ImageDir) (thr : Nat),
      (RemoveDuplicates.apply_threshold d thr true).1.deleted_count +
        (RemoveDuplicates.apply_threshold d thr true).1.failed_delete_count =
        (RemoveDuplicates.apply_threshold d thr true).1.to_delete.length) ∧
    (∀ (jp : String) (c : JVal) (tps locked : List String) (base : String)
        (disk : List String) (m : String) (st' : LoopSt),
      remove_paths_from_image_json jp (some c) tps locked base true disk
        = Except.error (m, st') →
      ∀ p v, FsOp.write p v ∉ st'.ops) := by
  constructor
  · intro d thr
    simp only [RemoveDuplicates.apply_threshold]
    split
    · simp
    · split
      · simp only
        rw [unlinkTry_foldl_count]
        simp
      · rename_i h2
        have hempty : ((RemoveDuplicates.find_connected_components
            (sweepPairs (pairDistances (RemoveDuplicates.computeHashes d
              (RemoveDuplicates.listFiles d))) thr)).flatMap
            fun c => List.filter (fun p =>
              decide (p ≠ RemoveDuplicates.select_representative c)) c) = [] := by
          by_contra hne
          exact h2 ⟨trivial, hne⟩
        dsimp only
        rw [hempty]
        rfl
  · intro jp c tps locked base disk m st' h
    unfold remove_paths_from_image_json at h
    rcases hl : load_image_json (some c) with e | pr
    · rw [hl] at h
      simp only [Except.error.injEq, Prod.mk.injEq] at h
      rw [← h.2]
      intro p v hv
      simp at hv
    · obtain ⟨orig, images⟩ := pr
      simp only [hl] at h
      rcases hpr : processItems base tps locked true images
          ⟨[], 0, 0, 0, disk, []⟩ with e | st
      · rw [hpr] at h
        simp only [Except.error.injEq] at h
        obtain ⟨m0, s0⟩ := e
        simp only [Prod.mk.injEq] at h
        have hops := processItems_ops base tps locked true images
          ⟨[], 0, 0, 0, disk, []⟩ s0 (Or.inr ⟨m0, hpr⟩)
        intro p v hv
        rw [← h.2] at hv
        rcases hops _ hv with h2 | h2
        · simp at h2
        · obtain ⟨q, hq⟩ := h2
          exact FsOp.noConfusion hq
      · simp only [hpr] at h
        by_cases hc : st.removed > 0
        · rw [if_pos hc] at h
          simp at h
        · rw [if_neg hc] at h
          simp at h

/-- Witness for C4's amended theorem: a two-file directory where one
target is locked — both counted; and a concrete aborted coordinator run
whose trace holds no write. -/
theorem spec_C4_per_file_failures_witness :
    ((RemoveDuplicates.apply_threshold
        ⟨["a.jpg", "bb.jpg"], fun _ => some [false], ["bb.jpg"]⟩ 1
        true).1.deleted_count +
      (RemoveDuplicates.apply_threshold
        ⟨["a.jpg", "bb.jpg"], fun _ => some [false], ["bb.jpg"]⟩ 1
        true).1.failed_delete_count =
      (RemoveDuplicates.apply_threshold
        ⟨["a.jpg", "bb.jpg"], fun _ => some [false], ["bb.jpg"]⟩ 1
        true).1.to_delete.length) ∧
    (∀ p v, FsOp.write p v ∉
      ([] : List FsOp)) :=
  ⟨spec_C4_per_file_failures.1
    ⟨["a.jpg", "bb.jpg"], fun _ => some [false], ["bb.jpg"]⟩ 1,
   spec_C4_per_file_failures.2 "/d/image_data.json"
    (JVal.jarr [JVal.jobj [("path", JVal.jstr "a.jpg")],
                JVal.jobj [("path", JVal.jstr "b.jpg")]])
    ["/d/a.jpg", "/d/b.jpg"] ["/d/a.jpg"] "/d" ["/d/a.jpg", "/d/b.jpg"]
    "PermissionError" ⟨[], 1, 0, 0, ["/d/a.jpg", "/d/b.jpg"], []⟩ rfl⟩

/-- C4, as stated, is false for the sidecar-aware coordinator: with a
locked first target, `remove_paths_from_image_json` raises, the second
matching record is never processed, and no summary is returned. -/
theorem spec_C4_counterexample :
    ¬ ∃ res, remove_paths_from_image_json "/d/image_data.json"
        (some (JVal.jarr [JVal.jobj [("path", JVal.jstr "a.jpg")],
                          JVal.jobj [("path", JVal.jstr "b.jpg")]]))
        ["/d/a.jpg", "/d/b.jpg"] ["/d/a.jpg"] "/d" true
        ["/d/a.jpg", "/d/b.jpg"] = Except.ok res := by
  rintro ⟨res, h⟩
  rw [show remove_paths_from_image_json "/d/image_data.json"
        (some (JVal.jarr [JVal.jobj [("path", JVal.jstr "a.jpg")],
                          JVal.jobj [("path", JVal.jstr "b.jpg")]]))
        ["/d/a.jpg", "/d/b.jpg"] ["/d/a.jpg"] "/d" true
        ["/d/a.jpg", "/d/b.jpg"]
      = Except.error ("PermissionError",
          ⟨[], 1, 0, 0, ["/d/a.jpg", "/d/b.jpg"], []⟩) from rfl] at h
  exact Except.noConfusion h

/-! ### Groundwork: deduplication, nodes, neighbours, connectivity -/

section ClusteringLemmas

variable {α : Type} [DecidableEq α]

theorem mem_dedupFirstAux (l : List α) :
    ∀ (seen : List α) (x : α),
      x ∈ dedupFirstAux seen l ↔ x ∈ l ∧ x ∉ seen := by
  induction l with
  | nil => intro seen x; simp [dedupFirstAux]
  | cons a l ih =>
    intro seen x
    by_cases ha : a ∈ seen
    · rw [dedupFirstAux, if_pos ha, ih]
      constructor
      · rintro ⟨h1, h2⟩
        exact ⟨List.mem_cons_of_mem a h1, h2⟩
      · rintro ⟨h1, h2⟩
        rcases List.mem_cons.mp h1 with h1 | h1
        · exact absurd (h1 ▸ ha) h2
        · exact ⟨h1, h2⟩
    · rw [dedupFirstAux, if_neg ha]
      by_cases hx : x = a
      · subst hx
        simp [ha]
      · rw [List.mem_cons]
        constructor
        · rintro (h | h)
          · exact absurd h hx
          · rw [ih] at h
            refine ⟨List.mem_cons_of_mem a h.1, ?_⟩
            intro hc
            exact h.2 (List.mem_cons_of_mem a hc)
        · rintro ⟨h1, h2⟩
          rcases List.mem_cons.mp h1 with h1 | h1
          · exact absurd h1 hx
          · refine Or.inr ((ih (a :: seen) x).mpr ⟨h1, ?_⟩)
            intro hc
            rcases List.mem_cons.mp hc with hc | hc
            · exact hx hc
            · exact h2 hc

theorem nodup_dedupFirstAux (l : List α) :
    ∀ seen : List α, (dedupFirstAux seen l).Nodup := by
  induction l with
  | nil => intro seen; simp [dedupFirstAux]
  | cons a l ih =>
    intro seen
    by_cases ha : a ∈ seen
    · rw [dedupFirstAux, if_pos ha]
      exact ih seen
    · rw [dedupFirstAux, if_neg ha]
      refine List.nodup_cons.mpr ⟨?_, ih (a :: seen)⟩
      intro hc
      exact ((mem_dedupFirstAux l (a :: seen) a).mp hc).2
        (List.mem_cons_self a seen)

theorem mem_dedupFirst (l : List α) (x : α) :
    x ∈ dedupFirst l ↔ x ∈ l := by
  rw [dedupFirst, mem_dedupFirstAux]
  simp

theorem nodup_dedupFirst (l : List α) : (dedupFirst l).Nodup :=
  nodup_dedupFirstAux l []

theorem mem_nodesOf (pairs : List (α × α)) (x : α) :
    x ∈ nodesOf pairs ↔ ∃ ab ∈ pairs, x = ab.1 ∨ x = ab.2 := by
  rw [nodesOf, mem_dedupFirst]
  simp only [List.mem_flatten, List.mem_map]
  constructor
  · rintro ⟨l, ⟨ab, hab, rfl⟩, hx⟩
    rcases List.mem_cons.mp hx with h | h
    · exact ⟨ab, hab, Or.inl h⟩
    · exact ⟨ab, hab, Or.inr (List.mem_singleton.mp h)⟩
  · rintro ⟨ab, hab, h | h⟩
    · exact ⟨[ab.1, ab.2], ⟨ab, hab, rfl⟩, h ▸ List.mem_cons_self _ _⟩
    · exact ⟨[ab.1, ab.2], ⟨ab, hab, rfl⟩,
        h ▸ List.mem_cons_of_mem _ (List.mem_singleton.mpr rfl)⟩

theorem nodup_nodesOf (pairs : List (α × α)) : (nodesOf pairs).Nodup :=
  nodup_dedupFirst _

theorem mem_nbrsOf (pairs : List (α × α)) (x y : α) :
    y ∈ nbrsOf pairs x ↔ edgeStep pairs x y := by
  rw [nbrsOf, mem_dedupFirst, edgeStep]
  simp only [List.mem_append, List.mem_map, List.mem_filter,
    decide_eq_true_eq]
  constructor
  · rintro (⟨ab, ⟨hab, h1⟩, rfl⟩ | ⟨ab, ⟨hab, h1⟩, rfl⟩)
    · left
      have : ab = (x, ab.2) := by
        cases ab
        simp at h1
        simp [h1]
      rw [this] at hab
      exact hab
    · right
      have : ab = (ab.1, x) := by
        cases ab
        simp at h1
        simp [h1]
      rw [this] at hab
      exact hab
  · rintro (h | h)
    · exact Or.inl ⟨(x, y), ⟨h, rfl⟩, rfl⟩
    · exact Or.inr ⟨(y, x), ⟨h, rfl⟩, rfl⟩

theorem edgeStep_symm (pairs : List (α × α)) (x y : α)
    (h : edgeStep pairs x y) : edgeStep pairs y x := h.symm

theorem nbrsOf_mem_nodesOf {pairs : List (α × α)} {x y : α}
    (h : y ∈ nbrsOf pairs x) : y ∈ nodesOf pairs ∧ x ∈ nodesOf pairs := by
  rw [mem_nbrsOf] at h
  rw [mem_nodesOf, mem_nodesOf]
  rcases h with h | h
  · exact ⟨⟨(x, y), h, Or.inr rfl⟩, ⟨(x, y), h, Or.inl rfl⟩⟩
  · exact ⟨⟨(y, x), h, Or.inl rfl⟩, ⟨(y, x), h, Or.inr rfl⟩⟩

theorem connRel_symm (pairs : List (α × α)) {x y : α}
    (h : connRel pairs x y) : connRel pairs y x :=
  (Relation.ReflTransGen.symmetric (fun _ _ hs => hs.symm)) h

theorem connRel_trans (pairs : List (α × α)) {x y z : α}
    (h1 : connRel pairs x y) (h2 : connRel pairs y z) :
    connRel pairs x z := h1.trans h2

theorem connRel_mono {pairs pairs' : List (α × α)}
    (hsub : ∀ e ∈ pairs, e ∈ pairs') {x y : α}
    (h : connRel pairs x y) : connRel pairs' x y := by
  refine Relation.ReflTransGen.mono ?_ h
  rintro a b (hab | hab)
  · exact Or.inl (hsub _ hab)
  · exact Or.inr (hsub _ hab)

end ClusteringLemmas

/-! ### BFS traversal correctness (`cluster_similar_images.py`) -/

section BfsProofs

variable {α : Type} [DecidableEq α]

theorem countP_not_mem_mono (U vis vis' : List α)
    (hsub : ∀ x ∈ vis, x ∈ vis') :
    U.countP (fun y => decide (y ∉ vis')) ≤
      U.countP (fun y => decide (y ∉ vis)) := by
  refine List.countP_mono_left ?_
  intro x _ hx
  simp only [decide_eq_true_eq] at hx ⊢
  intro hc
  exact hx (hsub x hc)

theorem countP_not_mem_cons_lt (U vis : List α) (x : α)
    (hxU : x ∈ U) (hxv : x ∉ vis) :
    U.countP (fun y => decide (y ∉ (x :: vis))) <
      U.countP (fun y => decide (y ∉ vis)) := by
  induction U with
  | nil => simp at hxU
  | cons u U ih =>
    rw [List.countP_cons, List.countP_cons]
    by_cases hux : u = x
    · subst hux
      have h1 : decide (u ∉ (u :: vis)) = false := by simp
      have h2 : decide (u ∉ vis) = true := by simpa using hxv
      rw [h1, h2, if_neg (by decide : ¬ (false = true)),
        if_pos (rfl : true = true)]
      have hle : U.countP (fun y => decide (y ∉ (u :: vis))) ≤
          U.countP (fun y => decide (y ∉ vis)) :=
        countP_not_mem_mono U vis (u :: vis)
          (fun z hz => List.mem_cons_of_mem u hz)
      omega
    · have heq : decide (u ∉ (x :: vis)) = decide (u ∉ vis) := by
        apply decide_eq_decide.mpr
        simp [hux]
      rw [heq]
      have hxU' : x ∈ U := by
        rcases List.mem_cons.mp hxU with h | h
        · exact absurd h.symm hux
        · exact h
      have := ih hxU'
      omega

theorem enqueueNbrs_cons (nb : α) (nbs q vis : List α) :
    enqueueNbrs (nb :: nbs) q vis =
      if nb ∈ vis then enqueueNbrs nbs q vis
      else enqueueNbrs nbs (q ++ [nb]) (nb :: vis) := by
  unfold enqueueNbrs
  rw [List.foldl_cons]
  by_cases h : nb ∈ vis
  · simp [h]
  · simp [h]

/-- Full behaviour of the neighbour-enqueueing fold: the queue is extended
by exactly the fresh neighbours, the visited set absorbs all neighbours,
and the not-yet-visited count of the universe drops by at least the
number of enqueued items. -/
theorem enqueueNbrs_spec (U : List α) :
    ∀ (nbs q vis : List α), q.Nodup → (∀ x ∈ q, x ∈ vis) →
      ∃ t, (enqueueNbrs nbs q vis).1 = q ++ t ∧
        (enqueueNbrs nbs q vis).1.Nodup ∧
        (∀ x ∈ (enqueueNbrs nbs q vis).1, x ∈ (enqueueNbrs nbs q vis).2) ∧
        (∀ x, x ∈ (enqueueNbrs nbs q vis).2 ↔ x ∈ vis ∨ x ∈ nbs) ∧
        (∀ x, x ∈ (enqueueNbrs nbs q vis).1 ↔
          x ∈ q ∨ (x ∈ nbs ∧ x ∉ vis)) ∧
        (∀ x ∈ t, x ∈ nbs ∧ x ∉ vis) ∧
        ((∀ x ∈ nbs, x ∈ U) →
          U.countP (fun y => decide (y ∉ (enqueueNbrs nbs q vis).2))
              + t.length
            ≤ U.countP (fun y => decide (y ∉ vis)))
  | [], q, vis, hnd, hqv => by
    refine ⟨[], by simp [enqueueNbrs], by simpa [enqueueNbrs] using hnd,
      ?_, ?_, ?_, by simp, ?_⟩
    · intro x hx
      simp only [enqueueNbrs, List.foldl_nil] at hx ⊢
      exact hqv x hx
    · intro x
      simp [enqueueNbrs]
    · intro x
      simp only [enqueueNbrs, List.foldl_nil, List.not_mem_nil, false_and,
        or_false]
    · intro _
      simp [enqueueNbrs]
  | nb :: nbs, q, vis, hnd, hqv => by
    rw [enqueueNbrs_cons]
    by_cases h : nb ∈ vis
    · rw [if_pos h]
      obtain ⟨t, h1, h2, h3, h4, h4b, h5, h6⟩ :=
        enqueueNbrs_spec U nbs q vis hnd hqv
      refine ⟨t, h1, h2, h3, ?_, ?_, ?_, ?_⟩
      · intro x
        rw [h4]
        constructor
        · rintro (hx | hx)
          · exact Or.inl hx
          · exact Or.inr (List.mem_cons_of_mem nb hx)
        · rintro (hx | hx)
          · exact Or.inl hx
          · rcases List.mem_cons.mp hx with hx | hx
            · exact Or.inl (hx ▸ h)
            · exact Or.inr hx
      · intro x
        rw [h4b]
        constructor
        · rintro (hx | ⟨hx1, hx2⟩)
          · exact Or.inl hx
          · exact Or.inr ⟨List.mem_cons_of_mem nb hx1, hx2⟩
        · rintro (hx | ⟨hx1, hx2⟩)
          · exact Or.inl hx
          · rcases List.mem_cons.mp hx1 with hx1 | hx1
            · exact absurd (hx1 ▸ h) hx2
            · exact Or.inr ⟨hx1, hx2⟩
      · intro x hx
        obtain ⟨hx1, hx2⟩ := h5 x hx
        exact ⟨List.mem_cons_of_mem nb hx1, hx2⟩
      · intro hU
        exact h6 (fun x hx => hU x (List.mem_cons_of_mem nb hx))
    · rw [if_neg h]
      have hnbq : nb ∉ q := fun hc => h (hqv nb hc)
      have hnd' : (q ++ [nb]).Nodup := by
        rw [List.nodup_append]
        exact ⟨hnd, List.nodup_singleton nb,
          fun x hx hx2 => hnbq ((List.mem_singleton.mp hx2) ▸ hx)⟩
      have hqv' : ∀ x ∈ q ++ [nb], x ∈ nb :: vis := by
        intro x hx
        rcases List.mem_append.mp hx with hx | hx
        · exact List.mem_cons_of_mem nb (hqv x hx)
        · exact (List.mem_singleton.mp hx) ▸ List.mem_cons_self nb vis
      obtain ⟨t, h1, h2, h3, h4, h4b, h5, h6⟩ :=
        enqueueNbrs_spec U nbs (q ++ [nb]) (nb :: vis) hnd' hqv'
      refine ⟨nb :: t, ?_, h2, h3, ?_, ?_, ?_, ?_⟩
      · rw [h1, List.append_assoc]
        rfl
      · intro x
        rw [h4]
        constructor
        · rintro (hx | hx)
          · rcases List.mem_cons.mp hx with hx | hx
            · exact Or.inr (hx ▸ List.mem_cons_self nb nbs)
            · exact Or.inl hx
          · exact Or.inr (List.mem_cons_of_mem nb hx)
        · rintro (hx | hx)
          · exact Or.inl (List.mem_cons_of_mem nb hx)
          · rcases List.mem_cons.mp hx with hx | hx
            · exact Or.inl (hx ▸ List.mem_cons_self nb vis)
            · exact Or.inr hx
      · intro x
        rw [h4b]
        constructor
        · rintro (hx | ⟨hx1, hx2⟩)
          · rcases List.mem_append.mp hx with hx | hx
            · exact Or.inl hx
            · refine Or.inr ⟨(List.mem_singleton.mp hx) ▸
                List.mem_cons_self nb nbs, (List.mem_singleton.mp hx) ▸ h⟩
          · have hx2' : x ∉ vis := fun hc =>
              hx2 (List.mem_cons_of_mem nb hc)
            exact Or.inr ⟨List.mem_cons_of_mem nb hx1, hx2'⟩
        · rintro (hx | ⟨hx1, hx2⟩)
          · exact Or.inl (List.mem_append_left [nb] hx)
          · rcases List.mem_cons.mp hx1 with hx1 | hx1
            · exact Or.inl (List.mem_append_right q
                (List.mem_singleton.mpr hx1))
            · by_cases hxnb : x = nb
              · exact Or.inl (List.mem_append_right q
                  (List.mem_singleton.mpr hxnb))
              · refine Or.inr ⟨hx1, ?_⟩
                intro hc
                rcases List.mem_cons.mp hc with hc | hc
                · exact hxnb hc
                · exact hx2 hc
      · intro x hx
        rcases List.mem_cons.mp hx with hx | hx
        · exact ⟨hx ▸ List.mem_cons_self nb nbs, hx ▸ h⟩
        · obtain ⟨hx1, hx2⟩ := h5 x hx
          exact ⟨List.mem_cons_of_mem nb hx1,
            fun hc => hx2 (List.mem_cons_of_mem nb hc)⟩
      · intro hU
        have h6' := h6 (fun x hx => hU x (List.mem_cons_of_mem nb hx))
        have hlt := countP_not_mem_cons_lt U vis nb
          (hU nb (List.mem_cons_self nb nbs)) h
        simp only [List.length_cons]
        omega

end BfsProofs

/-- Full correctness of the fuel-indexed BFS loop: with enough fuel it
returns the queue extended by exactly the newly reached vertices, the
visited set is `vis₀` plus the final queue, every queued vertex has all
its neighbours visited, and any `nbrs`-closed predicate `R` holding on
the initial queue holds on the whole final queue. -/
theorem bfsAux_complete {α : Type} [DecidableEq α] (nbrs : α → List α)
    (U : List α) (hnbrs : ∀ x y, y ∈ nbrs x → y ∈ U) (R : α → Prop)
    (hRc : ∀ y z, R y → z ∈ nbrs y → R z) :
    ∀ (fuel : Nat) (q : List α) (head : Nat) (vis vis₀ : List α),
      q.Nodup →
      (∀ x ∈ q, x ∈ vis) →
      (∀ x, x ∈ vis ↔ x ∈ vis₀ ∨ x ∈ q) →
      (∀ i (hq : i < q.length), i < head →
        ∀ y ∈ nbrs (q.get ⟨i, hq⟩), y ∈ vis) →
      head ≤ q.length →
      (∀ x ∈ q, R x) →
      (q.length - head) + U.countP (fun y => decide (y ∉ vis)) < fuel →
      ∃ t V, bfsAux nbrs fuel q head vis = (q ++ t, V) ∧
        (q ++ t).Nodup ∧
        (∀ x, x ∈ V ↔ x ∈ vis₀ ∨ x ∈ q ++ t) ∧
        (∀ x ∈ q ++ t, ∀ y ∈ nbrs x, y ∈ V) ∧
        (∀ x ∈ q ++ t, R x)
  | 0, q, head, vis, vis₀, _, _, _, _, _, _, hfuel => absurd hfuel (by omega)
  | fuel + 1, q, head, vis, vis₀, hnd, hqv, hiff, hproc, hhead, hR, hfuel => by
    by_cases hlt : head < q.length
    · have heq : bfsAux nbrs (fuel + 1) q head vis =
          bfsAux nbrs fuel
            (enqueueNbrs (nbrs (q.get ⟨head, hlt⟩)) q vis).1 (head + 1)
            (enqueueNbrs (nbrs (q.get ⟨head, hlt⟩)) q vis).2 := by
        rw [bfsAux, dif_pos hlt]
      obtain ⟨t₁, e1, e2, e3, e4, e4b, e5, e6⟩ :=
        enqueueNbrs_spec U (nbrs (q.get ⟨head, hlt⟩)) q vis hnd hqv
      have hRcurr : R (q.get ⟨head, hlt⟩) := hR _ (List.get_mem q head hlt)
      have hnd1 : (q ++ t₁).Nodup := e1 ▸ e2
      have hqv1 : ∀ x ∈ q ++ t₁,
          x ∈ (enqueueNbrs (nbrs (q.get ⟨head, hlt⟩)) q vis).2 := by
        intro x hx
        exact e3 x (e1 ▸ hx)
      have hiff1 : ∀ x, x ∈ (enqueueNbrs (nbrs (q.get ⟨head, hlt⟩)) q vis).2 ↔
          x ∈ vis₀ ∨ x ∈ q ++ t₁ := by
        intro x
        rw [e4]
        constructor
        · rintro (hx | hx)
          · rcases (hiff x).mp hx with h | h
            · exact Or.inl h
            · exact Or.inr (List.mem_append_left t₁ h)
          · by_cases hv : x ∈ vis
            · rcases (hiff x).mp hv with h | h
              · exact Or.inl h
              · exact Or.inr (List.mem_append_left t₁ h)
            · refine Or.inr ?_
              rw [← e1]
              exact (e4b x).mpr (Or.inr ⟨hx, hv⟩)
        · rintro (hx | hx)
          · exact Or.inl ((hiff x).mpr (Or.inl hx))
          · rcases List.mem_append.mp hx with h | h
            · exact Or.inl ((hiff x).mpr (Or.inr h))
            · exact Or.inr (e5 x h).1
      have hproc1 : ∀ i (hqi : i < (q ++ t₁).length), i < head + 1 →
          ∀ y ∈ nbrs ((q ++ t₁).get ⟨i, hqi⟩),
            y ∈ (enqueueNbrs (nbrs (q.get ⟨head, hlt⟩)) q vis).2 := by
        intro i hqi hi y hy
        by_cases hih : i < head
        · have hiq : i < q.length := lt_of_lt_of_le hih hhead
          have hget : (q ++ t₁).get ⟨i, hqi⟩ = q.get ⟨i, hiq⟩ := by
            rw [List.get_eq_getElem, List.get_eq_getElem]
            exact List.getElem_append_left hiq
          rw [hget] at hy
          exact (e4 y).mpr (Or.inl (hproc i hiq hih y hy))
        · have hieq : i = head := by omega
          subst hieq
          have hget : (q ++ t₁).get ⟨i, hqi⟩ = q.get ⟨i, hlt⟩ := by
            rw [List.get_eq_getElem, List.get_eq_getElem]
            exact List.getElem_append_left hlt
          rw [hget] at hy
          exact (e4 y).mpr (Or.inr hy)
      have hhead1 : head + 1 ≤ (q ++ t₁).length := by
        rw [List.length_append]
        omega
      have hR1 : ∀ x ∈ q ++ t₁, R x := by
        intro x hx
        rcases List.mem_append.mp hx with h | h
        · exact hR x h
        · exact hRc _ x hRcurr (e5 x h).1
      have hfuel1 : ((q ++ t₁).length - (head + 1)) +
          U.countP (fun y => decide
            (y ∉ (enqueueNbrs (nbrs (q.get ⟨head, hlt⟩)) q vis).2)) < fuel := by
        have h6 := e6 (fun x hx => hnbrs _ x hx)
        rw [List.length_append]
        omega
      obtain ⟨t₂, V, hb, hnd2, hiff2, hcl2, hR2⟩ :=
        bfsAux_complete nbrs U hnbrs R hRc fuel (q ++ t₁) (head + 1) _ vis₀
          hnd1 hqv1 hiff1 hproc1 hhead1 hR1 hfuel1
      refine ⟨t₁ ++ t₂, V, ?_, ?_, ?_, ?_, ?_⟩
      · rw [heq, e1, hb, List.append_assoc]
      · rwa [← List.append_assoc]
      · intro x
        rw [← List.append_assoc]
        exact hiff2 x
      · intro x hx y hy
        refine hcl2 x ?_ y hy
        rwa [← List.append_assoc] at hx
      · intro x hx
        refine hR2 x ?_
        rwa [← List.append_assoc] at hx
    · have heq : bfsAux nbrs (fuel + 1) q head vis = (q, vis) := by
        rw [bfsAux, dif_neg hlt]
      have hle : q.length ≤ head := le_of_not_lt hlt
      refine ⟨[], vis, by rw [heq, List.append_nil], by rwa [List.append_nil],
        ?_, ?_, ?_⟩
      · intro x
        rw [List.append_nil]
        exact hiff x
      · intro x hx y hy
        rw [List.append_nil] at hx
        obtain ⟨⟨i, hi⟩, rfl⟩ := List.mem_iff_get.mp hx
        exact hproc i hi (lt_of_lt_of_le hi hle) y hy
      · intro x hx
        rw [List.append_nil] at hx
        exact hR x hx

/-! ### From a traversal's output to a connected component -/

section ComponentProofs

variable {α : Type} [DecidableEq α]

/-- In a neighbour-closed visited set, connectivity cannot enter from
outside. -/
theorem closed_conn_mem (pairs : List (α × α)) (vis : List α)
    (hcl : ∀ x ∈ vis, ∀ y ∈ nbrsOf pairs x, y ∈ vis) {a b : α}
    (h : connRel pairs a b) (hb : b ∈ vis) : a ∈ vis := by
  induction h with
  | refl => exact hb
  | @tail b' c' _ hstep ih =>
    have hc : b' ∈ nbrsOf pairs c' :=
      (mem_nbrsOf pairs c' b').mpr (edgeStep_symm pairs b' c' hstep)
    exact ih (hcl c' hb b' hc)

/-- Interface between a traversal's result and the abstract component:
the traversed set `Q` is exactly the `connRel`-class of the start node,
it avoids the previously visited set, and the grown visited set is again
closed. -/
theorem component_extract (pairs : List (α × α)) (vis : List α) (node : α)
    (hcl : ∀ x ∈ vis, ∀ y ∈ nbrsOf pairs x, y ∈ vis)
    (hnode : node ∉ vis) (Q V : List α)
    (hnodeQ : node ∈ Q)
    (hiff : ∀ x, x ∈ V ↔ x ∈ vis ∨ x ∈ Q)
    (hclQ : ∀ x ∈ Q, ∀ y ∈ nbrsOf pairs x, y ∈ V)
    (hconn : ∀ x ∈ Q, connRel pairs node x) :
    (∀ x ∈ Q, x ∉ vis) ∧
    (∀ y, connRel pairs node y ↔ y ∈ Q) ∧
    (∀ x ∈ V, ∀ y ∈ nbrsOf pairs x, y ∈ V) := by
  have hdisj : ∀ x ∈ Q, x ∉ vis := by
    intro x hx hxv
    exact hnode (closed_conn_mem pairs vis hcl (hconn x hx) hxv)
  refine ⟨hdisj, ?_, ?_⟩
  · intro y
    constructor
    · intro h
      induction h with
      | refl => exact hnodeQ
      | @tail b' c' _ hstep ih =>
        have hb' : b' ∈ Q := ih
        have hcn : c' ∈ nbrsOf pairs b' := (mem_nbrsOf pairs b' c').mpr hstep
        have hcv : c' ∈ V := hclQ b' hb' c' hcn
        rcases (hiff c').mp hcv with h | h
        · exfalso
          have hbn : b' ∈ nbrsOf pairs c' :=
            (mem_nbrsOf pairs c' b').mpr (edgeStep_symm pairs b' c' hstep)
          exact hdisj b' hb' (hcl c' h b' hbn)
        · exact h
    · exact hconn y
  · intro x hx y hy
    rcases (hiff x).mp hx with h | h
    · exact (hiff y).mpr (Or.inl (hcl x h y hy))
    · exact hclQ x h y hy

end ComponentProofs

/-! ### The component-collection loop, shared by both modules -/

/-- Both `find_connected_components` variants fold the same collection
step over the node list: skip visited nodes, otherwise traverse the
component `Q` of the node, and append `sorted(Q)` when `|Q| ≥ 2`.  This
lemma derives the cluster-list specification from that shape. -/
theorem cc_loop_spec {α : Type} [DecidableEq α] [LinearOrder α]
    (pairs : List (α × α))
    (body : (List α × List (List α)) → α → (List α × List (List α)))
    (hbody_mem : ∀ vis acc node, node ∈ vis → body (vis, acc) node = (vis, acc))
    (hbody_new : ∀ vis acc node, node ∈ nodesOf pairs → node ∉ vis →
      ∃ (Q V : List α), Q.Nodup ∧ node ∈ Q ∧
        (∀ x, x ∈ V ↔ x ∈ vis ∨ x ∈ Q) ∧
        (∀ x ∈ Q, ∀ y ∈ nbrsOf pairs x, y ∈ V) ∧
        (∀ x ∈ Q, connRel pairs node x) ∧
        body (vis, acc) node =
          (V, if 1 < Q.length then acc ++ [Q.insertionSort (· ≤ ·)]
            else acc)) :
    ∀ (ns : List α) (vis : List α) (acc : List (List α)),
      (∀ n ∈ ns, n ∈ nodesOf pairs) →
      (∀ x ∈ vis, ∀ y ∈ nbrsOf pairs x, y ∈ vis) →
      (∀ c ∈ acc, c.Nodup ∧ 1 < c.length ∧
        ∀ x ∈ c, ∀ y, (y ∈ c ↔ connRel pairs x y)) →
      List.Pairwise (fun c d => ∀ x, x ∈ c → x ∉ d) acc →
      (∀ c ∈ acc, ∀ x ∈ c, x ∈ vis) →
      (∀ x ∈ vis, (∃ y, y ≠ x ∧ connRel pairs x y) → ∃ c ∈ acc, x ∈ c) →
      (∀ c ∈ (ns.foldl body (vis, acc)).2, c.Nodup ∧ 1 < c.length ∧
        ∀ x ∈ c, ∀ y, (y ∈ c ↔ connRel pairs x y)) ∧
      List.Pairwise (fun c d => ∀ x, x ∈ c → x ∉ d)
        (ns.foldl body (vis, acc)).2 ∧
      (∀ x ∈ (ns.foldl body (vis, acc)).1,
        (∃ y, y ≠ x ∧ connRel pairs x y) →
          ∃ c ∈ (ns.foldl body (vis, acc)).2, x ∈ c) ∧
      (∀ n ∈ ns, n ∈ (ns.foldl body (vis, acc)).1) ∧
      (∀ x ∈ vis, x ∈ (ns.foldl body (vis, acc)).1)
  | [], vis, acc, _, _, hacc, hpw, _, hcov => by
    simp only [List.foldl_nil]
    exact ⟨hacc, hpw, hcov, by simp, fun x hx => hx⟩
  | node :: ns, vis, acc, hns, hcl, hacc, hpw, haccv, hcov => by
    rw [List.foldl_cons]
    by_cases hv : node ∈ vis
    · rw [hbody_mem vis acc node hv]
      have ih := cc_loop_spec pairs body hbody_mem hbody_new ns vis acc
        (fun n hn => hns n (List.mem_cons_of_mem node hn)) hcl hacc hpw
        haccv hcov
      refine ⟨ih.1, ih.2.1, ih.2.2.1, ?_, ih.2.2.2.2⟩
      intro n hn
      rcases List.mem_cons.mp hn with hn | hn
      · exact hn ▸ ih.2.2.2.2 node hv
      · exact ih.2.2.2.1 n hn
    · obtain ⟨Q, V, hQnd, hnodeQ, hiffQ, hclQ, hconnQ, hbeq⟩ :=
        hbody_new vis acc node (hns node (List.mem_cons_self node ns)) hv
      obtain ⟨hdisj, hclass, hclV⟩ := component_extract pairs vis node hcl hv
        Q V hnodeQ hiffQ hclQ hconnQ
      rw [hbeq]
      have hvisV : ∀ x ∈ vis, x ∈ V := fun x hx => (hiffQ x).mpr (Or.inl hx)
      have hQV : ∀ x ∈ Q, x ∈ V := fun x hx => (hiffQ x).mpr (Or.inr hx)
      by_cases hlen : 1 < Q.length
      · rw [if_pos hlen]
        set c := Q.insertionSort (· ≤ ·) with hc
        have hcmem : ∀ x, x ∈ c ↔ x ∈ Q := fun x =>
          List.mem_insertionSort (· ≤ ·)
        have hcnd : c.Nodup :=
          (List.perm_insertionSort (· ≤ ·) Q).nodup_iff.mpr hQnd
        have hclen : 1 < c.length := by
          rwa [hc, List.length_insertionSort]
        have hcclass : ∀ x ∈ c, ∀ y, (y ∈ c ↔ connRel pairs x y) := by
          intro x hx y
          rw [hcmem] at hx
          rw [hcmem]
          have hnx : connRel pairs node x := hconnQ x hx
          constructor
          · intro hy
            exact connRel_trans pairs (connRel_symm pairs hnx)
              (hconnQ y hy)
          · intro hy
            exact (hclass y).mp (connRel_trans pairs hnx hy)
        have hacc' : ∀ d ∈ acc ++ [c], d.Nodup ∧ 1 < d.length ∧
            ∀ x ∈ d, ∀ y, (y ∈ d ↔ connRel pairs x y) := by
          intro d hd
          rcases List.mem_append.mp hd with hd | hd
          · exact hacc d hd
          · rw [List.mem_singleton.mp hd]
            exact ⟨hcnd, hclen, hcclass⟩
        have hpw' : List.Pairwise (fun c d => ∀ x, x ∈ c → x ∉ d)
            (acc ++ [c]) := by
          rw [List.pairwise_append]
          refine ⟨hpw, List.pairwise_singleton _ c, ?_⟩
          intro d hd c' hc' x hx
          rw [List.mem_singleton.mp hc', hcmem]
          intro hxQ
          exact hdisj x hxQ (haccv d hd x hx)
        have haccv' : ∀ d ∈ acc ++ [c], ∀ x ∈ d, x ∈ V := by
          intro d hd x hx
          rcases List.mem_append.mp hd with hd | hd
          · exact hvisV x (haccv d hd x hx)
          · exact hQV x ((hcmem x).mp ((List.mem_singleton.mp hd) ▸ hx))
        have hcov' : ∀ x ∈ V, (∃ y, y ≠ x ∧ connRel pairs x y) →
            ∃ d ∈ acc ++ [c], x ∈ d := by
          intro x hx hex
          rcases (hiffQ x).mp hx with hx | hx
          · obtain ⟨d, hd, hxd⟩ := hcov x hx hex
            exact ⟨d, List.mem_append_left _ hd, hxd⟩
          · exact ⟨c, List.mem_append_right _ (List.mem_singleton.mpr rfl),
              (hcmem x).mpr hx⟩
        have ih := cc_loop_spec pairs body hbody_mem hbody_new ns V (acc ++ [c])
          (fun n hn => hns n (List.mem_cons_of_mem node hn)) hclV hacc' hpw'
          haccv' hcov'
        refine ⟨ih.1, ih.2.1, ih.2.2.1, ?_, ?_⟩
        · intro n hn
          rcases List.mem_cons.mp hn with hn | hn
          · exact hn ▸ ih.2.2.2.2 node (hQV node hnodeQ)
          · exact ih.2.2.2.1 n hn
        · intro x hx
          exact ih.2.2.2.2 x (hvisV x hx)
      · rw [if_neg hlen]
        have hcov' : ∀ x ∈ V, (∃ y, y ≠ x ∧ connRel pairs x y) →
            ∃ d ∈ acc, x ∈ d := by
          intro x hx hex
          rcases (hiffQ x).mp hx with hx | hx
          · exact hcov x hx hex
          · exfalso
            obtain ⟨y, hyx, hxy⟩ := hex
            have hnx : connRel pairs node x := hconnQ x hx
            have hy : y ∈ Q := (hclass y).mp (connRel_trans pairs hnx hxy)
            -- Q has ≤ 1 elements but contains the distinct x and y
            have : Q.length ≤ 1 := Nat.le_of_not_lt hlen
            rcases Q with _ | ⟨a, Q'⟩
            · exact (List.not_mem_nil x) hx
            · rcases Q' with _ | ⟨b, Q''⟩
              · simp only [List.mem_singleton] at hx hy
                exact hyx (hy.trans hx.symm)
              · simp at this
        have haccv' : ∀ d ∈ acc, ∀ x ∈ d, x ∈ V := by
          intro d hd x hx
          exact hvisV x (haccv d hd x hx)
        have ih := cc_loop_spec pairs body hbody_mem hbody_new ns V acc
          (fun n hn => hns n (List.mem_cons_of_mem node hn)) hclV hacc hpw
          haccv' hcov'
        refine ⟨ih.1, ih.2.1, ih.2.2.1, ?_, ?_⟩
        · intro n hn
          rcases List.mem_cons.mp hn with hn | hn
          · exact hn ▸ ih.2.2.2.2 node (hQV node hnodeQ)
          · exact ih.2.2.2.1 n hn
        · intro x hx
          exact ih.2.2.2.2 x (hvisV x hx)

/-- The node whose component is explored is never yet fully counted:
the not-yet-visited count over the node list is below its length. -/
theorem countP_fresh_lt {α : Type} [DecidableEq α] (U vis : List α)
    (node : α) (hnU : node ∈ U) :
    U.countP (fun y => decide (y ∉ (node :: vis))) < U.length := by
  have hle : U.countP (fun y => decide (y ∉ (node :: vis))) ≤ U.length :=
    List.countP_le_length _
  rcases Nat.lt_or_ge (U.countP (fun y => decide (y ∉ (node :: vis))))
      U.length with h | h
  · exact h
  · exfalso
    have heq := Nat.le_antisymm hle h
    rw [List.countP_eq_length] at heq
    have := heq node hnU
    simp at this

/-- The BFS variant computes exactly the cluster list of the similarity
graph. -/
theorem csi_fcc_clusters {α : Type} [DecidableEq α] [LinearOrder α]
    (pairs : List (α × α)) :
    IsClusterList pairs (ClusterSimilarImages.find_connected_components pairs) := by
  have hmem : ∀ (vis : List α) (acc : List (List α)) (node : α),
      node ∈ vis →
      (fun (s : List α × List (List α)) node =>
        if node ∈ s.1 then s
        else
          let r := bfsAux (nbrsOf pairs) ((nodesOf pairs).length + 1)
            [node] 0 (node :: s.1)
          if r.1.length > 1 then (r.2, s.2 ++ [r.1.insertionSort (· ≤ ·)])
          else (r.2, s.2)) (vis, acc) node = (vis, acc) := by
    intro vis acc node h
    simp only [if_pos h]
  have hnew : ∀ (vis : List α) (acc : List (List α)) (node : α),
      node ∈ nodesOf pairs → node ∉ vis →
      ∃ (Q V : List α), Q.Nodup ∧ node ∈ Q ∧
        (∀ x, x ∈ V ↔ x ∈ vis ∨ x ∈ Q) ∧
        (∀ x ∈ Q, ∀ y ∈ nbrsOf pairs x, y ∈ V) ∧
        (∀ x ∈ Q, connRel pairs node x) ∧
        (fun (s : List α × List (List α)) node =>
          if node ∈ s.1 then s
          else
            let r := bfsAux (nbrsOf pairs) ((nodesOf pairs).length + 1)
              [node] 0 (node :: s.1)
            if r.1.length > 1 then (r.2, s.2 ++ [r.1.insertionSort (· ≤ ·)])
            else (r.2, s.2)) (vis, acc) node =
          (V, if 1 < Q.length then acc ++ [Q.insertionSort (· ≤ ·)]
            else acc) := by
    intro vis acc node hnU hnv
    obtain ⟨t, V, hbfs, hnd, hiff, hcl, hR⟩ :=
      bfsAux_complete (nbrsOf pairs) (nodesOf pairs)
        (fun x y hy => (nbrsOf_mem_nodesOf hy).1)
        (connRel pairs node)
        (fun y z hy hz => hy.tail ((mem_nbrsOf pairs y z).mp hz))
        ((nodesOf pairs).length + 1) [node] 0 (node :: vis) vis
        (List.nodup_singleton node)
        (by
          intro x hx
          rw [List.mem_singleton.mp hx]
          exact List.mem_cons_self _ _)
        (by
          intro x
          rw [List.mem_cons, List.mem_singleton]
          exact or_comm)
        (by
          intro i hq hi
          exact absurd hi (Nat.not_lt_zero i))
        (by simp)
        (by
          intro x hx
          rw [List.mem_singleton.mp hx]
          exact Relation.ReflTransGen.refl)
        (by
          have := countP_fresh_lt (nodesOf pairs) vis node hnU
          simp only [List.length_singleton]
          omega)
    refine ⟨[node] ++ t, V, hnd,
      List.mem_append_left t (List.mem_singleton.mpr rfl), hiff, hcl, hR, ?_⟩
    simp only [if_neg hnv, hbfs]
    by_cases hlen : 1 < ([node] ++ t).length
    · rw [if_pos hlen, if_pos hlen]
    · rw [if_neg hlen, if_neg hlen]
  have hloop := cc_loop_spec pairs
    (fun (s : List α × List (List α)) node =>
      if node ∈ s.1 then s
      else
        let r := bfsAux (nbrsOf pairs) ((nodesOf pairs).length + 1)
          [node] 0 (node :: s.1)
        if r.1.length > 1 then (r.2, s.2 ++ [r.1.insertionSort (· ≤ ·)])
        else (r.2, s.2))
    hmem hnew (nodesOf pairs) [] []
    (fun n hn => hn) (by simp) (by simp) (by simp) (by simp) (by simp)
  obtain ⟨h1, h2, h3, h4, _⟩ := hloop
  refine ⟨h1, h2, ?_⟩
  intro x y hxy hne
  rcases Relation.ReflTransGen.cases_head hxy with heq | ⟨z, hstep, _⟩
  · exact absurd heq hne
  · have hxU : x ∈ nodesOf pairs := by
      rw [mem_nodesOf]
      rcases hstep with h | h
      · exact ⟨(x, z), h, Or.inl rfl⟩
      · exact ⟨(z, x), h, Or.inr rfl⟩
    exact h3 x (h4 x hxU) ⟨y, Ne.symm hne, hxy⟩

/-! ## Claim C1 — monotone projected delete count -/

section DeleteCountMono

variable {α : Type} [DecidableEq α]

theorem sum_map_split {β : Type} (g : β → Nat) (p : β → Bool)
    (F : List β) :
    ((F.filter p).map g).sum + ((F.filter (fun S => !(p S))).map g).sum
      = (F.map g).sum := by
  induction F with
  | nil => simp
  | cons S F ih =>
    by_cases hp : p S = true
    · simp only [List.filter_cons, hp, Bool.not_true, Bool.false_eq_true,
        if_true, if_false, List.map_cons, List.sum_cons]
      omega
    · have hp' : p S = false := by rwa [Bool.not_eq_true] at hp
      simp only [List.filter_cons, hp', Bool.not_false, Bool.false_eq_true,
        if_true, if_false, List.map_cons, List.sum_cons]
      omega

/-- Disjoint subsets of `T` have total size at most `|T|`. -/
theorem sum_card_le_of_disjoint :
    ∀ (L : List (Finset α)) (T : Finset α),
      List.Pairwise Disjoint L → (∀ S ∈ L, S ⊆ T) →
      (L.map Finset.card).sum ≤ T.card
  | [], T, _, _ => by simp
  | S :: L, T, hpw, hsub => by
    simp only [List.map_cons, List.sum_cons]
    have hST : S ⊆ T := hsub S (List.mem_cons_self S L)
    have hpw' : List.Pairwise Disjoint L := hpw.of_cons
    have hsub' : ∀ S' ∈ L, S' ⊆ T \ S := by
      intro S' hS'
      have hdisj : Disjoint S S' := (List.pairwise_cons.mp hpw).1 S' hS'
      intro x hx
      rw [Finset.mem_sdiff]
      exact ⟨hsub S' (List.mem_cons_of_mem S hS') hx,
        fun hc => (Finset.disjoint_left.mp hdisj) hc hx⟩
    have ih := sum_card_le_of_disjoint L (T \ S) hpw' hsub'
    have hcard : (T \ S).card = T.card - S.card := Finset.card_sdiff hST
    have hle : S.card ≤ T.card := Finset.card_le_card hST
    omega

theorem sum_card_sub_one (L : List (Finset α))
    (hne : ∀ S ∈ L, S.Nonempty) :
    (L.map (fun S => S.card - 1)).sum + L.length = (L.map Finset.card).sum := by
  induction L with
  | nil => simp
  | cons S L ih =>
    have h1 : 1 ≤ S.card := Finset.card_pos.mpr (hne S (List.mem_cons_self S L))
    have ih' := ih (fun S' hS' => hne S' (List.mem_cons_of_mem S hS'))
    simp only [List.map_cons, List.sum_cons, List.length_cons]
    omega

/-- A nonempty disjoint family of nonempty subsets of `S'` satisfies
`Σ (card − 1) ≤ card S' − 1`; the empty family gives 0. -/
theorem sum_sub_one_le_single (S' : Finset α) :
    ∀ (L : List (Finset α)), (∀ S ∈ L, S.Nonempty) →
      List.Pairwise Disjoint L → (∀ S ∈ L, S ⊆ S') →
      (L.map (fun S => S.card - 1)).sum ≤ S'.card - 1
  | [], _, _, _ => by simp
  | S₀ :: L₀, hne, hpw, hsub => by
    have h1 := sum_card_sub_one (S₀ :: L₀) hne
    have h2 := sum_card_le_of_disjoint (S₀ :: L₀) S' hpw hsub
    have h3 : 1 ≤ (S₀ :: L₀).length := by simp
    omega

/-- Key combinatorial bound: if every member of a disjoint family of
nonempty sets is contained in some member of a second family, the total
of `card − 1` cannot decrease going to the second family. -/
theorem sum_sub_one_le :
    ∀ (F' F : List (Finset α)),
      (∀ S ∈ F, S.Nonempty) →
      List.Pairwise Disjoint F →
      (∀ S ∈ F, ∃ S' ∈ F', S ⊆ S') →
      (F.map (fun S => S.card - 1)).sum ≤ (F'.map (fun S => S.card - 1)).sum
  | [], F, hne, hpw, htgt => by
    cases F with
    | nil => simp
    | cons S F =>
      obtain ⟨S', hS', _⟩ := htgt S (List.mem_cons_self S F)
      exact absurd hS' (List.not_mem_nil S')
  | S' :: rest, F, hne, hpw, htgt => by
    have hsplit := sum_map_split (fun S => S.card - 1)
      (fun S => decide (S ⊆ S')) F
    have hF₁sub : ∀ S ∈ F.filter (fun S => decide (S ⊆ S')), S ⊆ S' := by
      intro S hS
      have := (List.mem_filter.mp hS).2
      simpa using this
    have hF₂sub : (F.filter (fun S => !(decide (S ⊆ S')))).Sublist F :=
      List.filter_sublist F
    have hF₂tgt : ∀ S ∈ F.filter (fun S => !(decide (S ⊆ S'))),
        ∃ T ∈ rest, S ⊆ T := by
      intro S hS
      obtain ⟨hSF, hnsub⟩ := List.mem_filter.mp hS
      obtain ⟨T, hT, hsub⟩ := htgt S hSF
      rcases List.mem_cons.mp hT with hT | hT
      · exfalso
        rw [hT] at hsub
        rw [decide_eq_true hsub] at hnsub
        exact absurd hnsub (by simp)
      · exact ⟨T, hT, hsub⟩
    have ih := sum_sub_one_le rest (F.filter (fun S => !(decide (S ⊆ S'))))
      (fun S hS => hne S (hF₂sub.mem hS))
      (hpw.sublist hF₂sub)
      hF₂tgt
    have hbound := sum_sub_one_le_single S'
      (F.filter (fun S => decide (S ⊆ S')))
      (fun S hS => hne S ((List.filter_sublist F).mem hS))
      (hpw.sublist (List.filter_sublist F))
      hF₁sub
    simp only [List.map_cons, List.sum_cons]
    omega

end DeleteCountMono

/-- Monotonicity of the projected delete count under edge-set growth. -/
theorem projected_delete_mono {α : Type} [DecidableEq α] [LinearOrder α]
    (E E' : List (α × α)) (hsub : ∀ e ∈ E, e ∈ E') :
    ((ClusterSimilarImages.find_connected_components E).map
      (fun c => c.length - 1)).sum ≤
    ((ClusterSimilarImages.find_connected_components E').map
      (fun c => c.length - 1)).sum := by
  obtain ⟨hC, hCpw, hCcov⟩ := csi_fcc_clusters E
  obtain ⟨hC', hC'pw, hC'cov⟩ := csi_fcc_clusters E'
  set C := ClusterSimilarImages.find_connected_components E with hCdef
  set C' := ClusterSimilarImages.find_connected_components E' with hC'def
  have hsum : ∀ (D : List (List α)), (∀ c ∈ D, c.Nodup) →
      ((D.map List.toFinset).map (fun S => S.card - 1)).sum
        = (D.map (fun c => c.length - 1)).sum := by
    intro D hD
    rw [List.map_map]
    refine congrArg List.sum (List.map_congr_left ?_)
    intro c hc
    simp only [Function.comp]
    rw [List.toFinset_card_of_nodup (hD c hc)]
  rw [← hsum C (fun c hc => (hC c hc).1), ← hsum C' (fun c hc => (hC' c hc).1)]
  refine sum_sub_one_le (C'.map List.toFinset) (C.map List.toFinset) ?_ ?_ ?_
  · intro S hS
    obtain ⟨c, hc, rfl⟩ := List.mem_map.mp hS
    obtain ⟨hnd, hlen, _⟩ := hC c hc
    rw [← Finset.card_pos, List.toFinset_card_of_nodup hnd]
    omega
  · have : ∀ (c d : List α), (∀ x, x ∈ c → x ∉ d) →
        Disjoint c.toFinset d.toFinset := by
      intro c d h
      rw [Finset.disjoint_left]
      intro x hx hx'
      exact h x (List.mem_toFinset.mp hx) (List.mem_toFinset.mp hx')
    exact List.Pairwise.map List.toFinset this hCpw
  · intro S hS
    obtain ⟨c, hc, rfl⟩ := List.mem_map.mp hS
    obtain ⟨hnd, hlen, hclass⟩ := hC c hc
    -- pick x ∈ c and a distinct partner y ∈ c
    have hcard : 1 < c.toFinset.card := by
      rwa [List.toFinset_card_of_nodup hnd]
    obtain ⟨a, b, ha, hb, hab⟩ := Finset.one_lt_card_iff.mp hcard
    have hx : a ∈ c := List.mem_toFinset.mp ha
    have hy : b ∈ c := List.mem_toFinset.mp hb
    have hconn : connRel E a b := (hclass a hx b).mp hy
    have hconn' : connRel E' a b := connRel_mono hsub hconn
    obtain ⟨c', hc', hxc'⟩ := hC'cov a b hconn' hab
    refine ⟨c'.toFinset, List.mem_map_of_mem List.toFinset hc', ?_⟩
    intro z hz
    rw [List.mem_toFinset] at hz ⊢
    have hxz : connRel E a z := (hclass a hx z).mp hz
    exact ((hC' c' hc').2.2 a hxc' z).mpr (connRel_mono hsub hxz)

/-- Growing the threshold only adds edges. -/
theorem sweepPairs_mono {α : Type} (ds : List (α × α × Nat)) (t1 t2 : Nat)
    (h : t1 ≤ t2) : ∀ e ∈ sweepPairs ds t1, e ∈ sweepPairs ds t2 := by
  intro e he
  unfold sweepPairs at he ⊢
  obtain ⟨x, hx, rfl⟩ := List.mem_map.mp he
  have hx' := List.mem_filter.mp hx
  refine List.mem_map_of_mem _ (List.mem_filter.mpr ⟨hx'.1, ?_⟩)
  have hd : x.2.2 ≤ t1 := by simpa using hx'.2
  exact decide_eq_true (le_trans hd h)

/-- C1: in a threshold sweep over any fingerprint map, the projected
delete count `Σ (|cluster| − 1)` reported by `evaluate_thresholds` at a
threshold `t1` is at most the count reported at any larger threshold
`t2` (a larger threshold only adds edges, so clusters only merge or
grow). -/
theorem spec_C1_sweep_monotone {α : Type} [DecidableEq α] [LinearOrder α]
    (hashes : List (α × List Bool)) (thresholds : List Nat)
    (t1 t2 : Nat) (c1 c2 : List (List α)) (n1 n2 : Nat)
    (hlt : t1 < t2)
    (h1 : (t1, c1, n1) ∈
      ClusterSimilarImages.evaluate_thresholds hashes thresholds)
    (h2 : (t2, c2, n2) ∈
      ClusterSimilarImages.evaluate_thresholds hashes thresholds) :
    n1 ≤ n2 := by
  unfold ClusterSimilarImages.evaluate_thresholds at h1 h2
  obtain ⟨t1', _, heq1⟩ := List.mem_map.mp h1
  obtain ⟨t2', _, heq2⟩ := List.mem_map.mp h2
  simp only [Prod.mk.injEq] at heq1 heq2
  obtain ⟨ht1, _, hn1⟩ := heq1
  obtain ⟨ht2, _, hn2⟩ := heq2
  rw [← hn1, ← hn2, ht1, ht2]
  exact projected_delete_mono
    (sweepPairs (pairDistances hashes) t1)
    (sweepPairs (pairDistances hashes) t2)
    (sweepPairs_mono (pairDistances hashes) t1 t2 (Nat.le_of_lt hlt))

/-- Witness for C1 at a three-file fingerprint map (identifiers 0,1,2
with hashes 00, 01, 11): threshold 0 groups nothing, threshold 1 chains
all three files, so the projected delete count grows from 0 to 2. -/
theorem spec_C1_sweep_monotone_witness : (0 : Nat) ≤ 2 :=
  spec_C1_sweep_monotone
    [(0, [false, false]), (1, [false, true]), (2, [true, true])] [0, 1]
    0 1 [] [[0, 1, 2]] 0 2 (by decide) (by decide) (by decide)

/-! ### DFS traversal correctness (`remove_duplicates.py`) -/

/-- Full correctness of the fuel-indexed recursive DFS: with enough fuel
the visited set and component grow together by exactly the newly reached
vertices; new vertices satisfy any `nbrs`-closed predicate holding at the
start node, and all their neighbours end up visited. -/
theorem dfsAux_complete {α : Type} [DecidableEq α] (nbrs : α → List α)
    (U : List α) (hnbrs : ∀ x y, y ∈ nbrs x → y ∈ U) (R : α → Prop)
    (hRc : ∀ y z, R y → z ∈ nbrs y → R z) (vis₀ : List α) :
    ∀ (fuel : Nat) (node : α) (vis comp : List α),
      (∀ x, x ∈ vis ↔ x ∈ vis₀ ∨ x ∈ comp) →
      comp.Nodup →
      R node →
      (∀ x ∈ comp, R x) →
      node ∈ U →
      U.countP (fun y => decide (y ∉ vis)) < fuel →
      ∃ t V, dfsAux nbrs fuel node (vis, comp) = (V, t ++ comp) ∧
        (∀ x, x ∈ V ↔ x ∈ vis₀ ∨ x ∈ t ++ comp) ∧
        (t ++ comp).Nodup ∧
        (∀ x ∈ t, R x ∧ x ∉ vis) ∧
        node ∈ V ∧
        (node ∉ vis → node ∈ t) ∧
        (∀ x ∈ t, ∀ y ∈ nbrs x, y ∈ V) ∧
        (∀ x ∈ vis, x ∈ V) ∧
        U.countP (fun y => decide (y ∉ V)) ≤
          U.countP (fun y => decide (y ∉ vis))
  | 0, node, vis, comp, _, _, _, _, _, hfuel => absurd hfuel (by omega)
  | fuel + 1, node, vis, comp, hiff, hnd, hRn, hRcomp, hnU, hfuel => by
    by_cases hv : node ∈ vis
    · refine ⟨[], vis, ?_, by simpa using hiff, by simpa using hnd,
        fun x hx => absurd hx (List.not_mem_nil x),
        hv, fun hc => absurd hv hc,
        fun x hx => absurd hx (List.not_mem_nil x),
        fun x hx => hx, le_refl _⟩
      rw [dfsAux, if_pos hv]
      simp
    · have hcompvis : ∀ x ∈ comp, x ∈ vis :=
        fun x hx => (hiff x).mpr (Or.inr hx)
      have hndc : (node :: comp).Nodup :=
        List.nodup_cons.mpr ⟨fun hc => hv (hcompvis node hc), hnd⟩
      have hiffc : ∀ x, x ∈ node :: vis ↔ x ∈ vis₀ ∨ x ∈ node :: comp := by
        intro x
        rw [List.mem_cons, List.mem_cons, hiff x]
        tauto
      have hRcomp' : ∀ x ∈ node :: comp, R x := by
        intro x hx
        rcases List.mem_cons.mp hx with hx | hx
        · exact hx ▸ hRn
        · exact hRcomp x hx
      have hlt := countP_not_mem_cons_lt U vis node hnU hv
      have hfold : ∀ (nbs : List α), (∀ nb ∈ nbs, nb ∈ U) →
          (∀ nb ∈ nbs, R nb) →
          ∀ (vis1 comp1 : List α),
            (∀ x, x ∈ vis1 ↔ x ∈ vis₀ ∨ x ∈ comp1) →
            comp1.Nodup →
            (∀ x ∈ comp1, R x) →
            U.countP (fun y => decide (y ∉ vis1)) < fuel →
            ∃ t V, nbs.foldl
                (fun t nb => if nb ∈ t.1 then t else dfsAux nbrs fuel nb t)
                (vis1, comp1) = (V, t ++ comp1) ∧
              (∀ x, x ∈ V ↔ x ∈ vis₀ ∨ x ∈ t ++ comp1) ∧
              (t ++ comp1).Nodup ∧
              (∀ x ∈ t, R x ∧ x ∉ vis1) ∧
              (∀ x ∈ t, ∀ y ∈ nbrs x, y ∈ V) ∧
              (∀ nb ∈ nbs, nb ∈ V) ∧
              (∀ x ∈ vis1, x ∈ V) ∧
              U.countP (fun y => decide (y ∉ V)) ≤
                U.countP (fun y => decide (y ∉ vis1)) := by
        intro nbs
        induction nbs with
        | nil =>
          intro _ _ vis1 comp1 hiff1 hnd1 hR1 hfuel1
          exact ⟨[], vis1, by simp, by simpa using hiff1,
            by simpa using hnd1,
            fun x hx => absurd hx (List.not_mem_nil x),
            fun x hx => absurd hx (List.not_mem_nil x),
            fun nb hnb => absurd hnb (List.not_mem_nil nb),
            fun x hx => hx, le_refl _⟩
        | cons nb nbs ihn =>
          intro hnbsU hnbsR vis1 comp1 hiff1 hnd1 hR1 hfuel1
          rw [List.foldl_cons]
          by_cases hnbv : nb ∈ vis1
          · rw [if_pos hnbv]
            obtain ⟨t, V, h0, h1, h2, h3, h4, h5, h6, h7⟩ :=
              ihn (fun x hx => hnbsU x (List.mem_cons_of_mem nb hx))
                (fun x hx => hnbsR x (List.mem_cons_of_mem nb hx))
                vis1 comp1 hiff1 hnd1 hR1 hfuel1
            refine ⟨t, V, h0, h1, h2, h3, h4, ?_, h6, h7⟩
            intro nb' hnb'
            rcases List.mem_cons.mp hnb' with hnb' | hnb'
            · exact hnb' ▸ h6 nb hnbv
            · exact h5 nb' hnb'
          · rw [if_neg hnbv]
            obtain ⟨ta, Va, g0, g1, g2, g3, g4, _, g6, g7, g8⟩ :=
              dfsAux_complete nbrs U hnbrs R hRc vis₀ fuel nb vis1 comp1
                hiff1 hnd1 (hnbsR nb (List.mem_cons_self nb nbs)) hR1
                (hnbsU nb (List.mem_cons_self nb nbs)) hfuel1
            rw [g0]
            obtain ⟨tb, Vb, k0, k1, k2, k3, k4, k5, k6, k7⟩ :=
              ihn (fun x hx => hnbsU x (List.mem_cons_of_mem nb hx))
                (fun x hx => hnbsR x (List.mem_cons_of_mem nb hx))
                Va (ta ++ comp1) g1 g2
                (by
                  intro x hx
                  rcases List.mem_append.mp hx with hx | hx
                  · exact (g3 x hx).1
                  · exact hR1 x hx)
                (lt_of_le_of_lt g8 hfuel1)
            refine ⟨tb ++ ta, Vb, ?_, ?_, ?_, ?_, ?_, ?_, ?_, ?_⟩
            · rw [k0, List.append_assoc]
            · intro x
              rw [k1 x, List.append_assoc]
            · rwa [List.append_assoc]
            · intro x hx
              rcases List.mem_append.mp hx with hx | hx
              · obtain ⟨hr, hnv⟩ := k3 x hx
                exact ⟨hr, fun hc => hnv (g7 x hc)⟩
              · exact g3 x hx
            · intro x hx y hy
              rcases List.mem_append.mp hx with hx | hx
              · exact k4 x hx y hy
              · exact k6 y (g6 x hx y hy)
            · intro nb' hnb'
              rcases List.mem_cons.mp hnb' with hnb' | hnb'
              · exact hnb' ▸ k6 nb g4
              · exact k5 nb' hnb'
            · intro x hx
              exact k6 x (g7 x hx)
            · exact le_trans k7 g8
      obtain ⟨tf, Vf, f0, f1, f2, f3, f4, f5, f6, f7⟩ :=
        hfold (nbrs node) (fun x hx => hnbrs node x hx)
          (fun x hx => hRc node x hRn hx)
          (node :: vis) (node :: comp) hiffc hndc hRcomp' (by omega)
      have hteq : tf ++ (node :: comp) = (tf ++ [node]) ++ comp := by
        rw [List.append_assoc]
        rfl
      refine ⟨tf ++ [node], Vf, ?_, ?_, ?_, ?_, ?_, ?_, ?_, ?_, ?_⟩
      · rw [dfsAux, if_neg hv, f0, hteq]
      · intro x
        rw [f1 x, hteq]
      · rwa [hteq] at f2
      · intro x hx
        rcases List.mem_append.mp hx with hx | hx
        · obtain ⟨hr, hnv⟩ := f3 x hx
          exact ⟨hr, fun hc => hnv (List.mem_cons_of_mem node hc)⟩
        · rw [List.mem_singleton.mp hx]
          exact ⟨hRn, hv⟩
      · exact f6 node (List.mem_cons_self node vis)
      · intro _
        exact List.mem_append_right tf (List.mem_singleton.mpr rfl)
      · intro x hx y hy
        rcases List.mem_append.mp hx with hx | hx
        · exact f4 x hx y hy
        · rw [List.mem_singleton.mp hx] at hy
          exact f5 y hy
      · intro x hx
        exact f6 x (List.mem_cons_of_mem node hx)
      · calc U.countP (fun y => decide (y ∉ Vf))
            ≤ U.countP (fun y => decide (y ∉ (node :: vis))) := f7
          _ ≤ U.countP (fun y => decide (y ∉ vis)) := Nat.le_of_lt hlt

/-- The DFS variant of `remove_duplicates.py` also computes exactly the
cluster list of the similarity graph. -/
theorem rd_fcc_clusters {α : Type} [DecidableEq α] [LinearOrder α]
    (pairs : List (α × α)) :
    IsClusterList pairs (RemoveDuplicates.find_connected_components pairs) := by
  have hmem : ∀ (vis : List α) (acc : List (List α)) (node : α),
      node ∈ vis →
      (fun (s : List α × List (List α)) node =>
        if node ∈ s.1 then s
        else
          let r := dfsAux (nbrsOf pairs) ((nodesOf pairs).length + 1)
            node (s.1, [])
          if r.2.length > 1 then (r.1, s.2 ++ [r.2.insertionSort (· ≤ ·)])
          else (r.1, s.2)) (vis, acc) node = (vis, acc) := by
    intro vis acc node h
    simp only [if_pos h]
  have hnew : ∀ (vis : List α) (acc : List (List α)) (node : α),
      node ∈ nodesOf pairs → node ∉ vis →
      ∃ (Q V : List α), Q.Nodup ∧ node ∈ Q ∧
        (∀ x, x ∈ V ↔ x ∈ vis ∨ x ∈ Q) ∧
        (∀ x ∈ Q, ∀ y ∈ nbrsOf pairs x, y ∈ V) ∧
        (∀ x ∈ Q, connRel pairs node x) ∧
        (fun (s : List α × List (List α)) node =>
          if node ∈ s.1 then s
          else
            let r := dfsAux (nbrsOf pairs) ((nodesOf pairs).length + 1)
              node (s.1, [])
            if r.2.length > 1 then (r.1, s.2 ++ [r.2.insertionSort (· ≤ ·)])
            else (r.1, s.2)) (vis, acc) node =
          (V, if 1 < Q.length then acc ++ [Q.insertionSort (· ≤ ·)]
            else acc) := by
    intro vis acc node hnU hnv
    obtain ⟨t, V, h0, h1, h2, h3, _, h5, h6, _, _⟩ :=
      dfsAux_complete (nbrsOf pairs) (nodesOf pairs)
        (fun x y hy => (nbrsOf_mem_nodesOf hy).1)
        (connRel pairs node)
        (fun y z hy hz => hy.tail ((mem_nbrsOf pairs y z).mp hz))
        vis ((nodesOf pairs).length + 1) node vis []
        (by simp)
        List.nodup_nil
        Relation.ReflTransGen.refl
        (fun x hx => absurd hx (List.not_mem_nil x))
        hnU
        (by
          have := List.countP_le_length
            (fun y => decide (y ∉ vis)) (l := nodesOf pairs)
          omega)
    rw [List.append_nil] at h0 h1 h2
    refine ⟨t, V, h2, h5 hnv, h1, h6, fun x hx => (h3 x hx).1, ?_⟩
    simp only [if_neg hnv, h0]
    by_cases hlen : 1 < t.length
    · rw [if_pos hlen, if_pos hlen]
    · rw [if_neg hlen, if_neg hlen]
  have hloop := cc_loop_spec pairs
    (fun (s : List α × List (List α)) node =>
      if node ∈ s.1 then s
      else
        let r := dfsAux (nbrsOf pairs) ((nodesOf pairs).length + 1)
          node (s.1, [])
        if r.2.length > 1 then (r.1, s.2 ++ [r.2.insertionSort (· ≤ ·)])
        else (r.1, s.2))
    hmem hnew (nodesOf pairs) [] []
    (fun n hn => hn) (by simp) (by simp) (by simp) (by simp) (by simp)
  obtain ⟨h1, h2, h3, h4, _⟩ := hloop
  refine ⟨h1, h2, ?_⟩
  intro x y hxy hne
  rcases Relation.ReflTransGen.cases_head hxy with heq | ⟨z, hstep, _⟩
  · exact absurd heq hne
  · have hxU : x ∈ nodesOf pairs := by
      rw [mem_nodesOf]
      rcases hstep with h | h
      · exact ⟨(x, z), h, Or.inl rfl⟩
      · exact ⟨(z, x), h, Or.inr rfl⟩
    exact h3 x (h4 x hxU) ⟨y, Ne.symm hne, hxy⟩

/-! ### Support for the apply_threshold claims -/

/-- In a pairwise-disjoint list of lists, an element pins down its list. -/
theorem pairwise_disjoint_mem_eq {α : Type} {C : List (List α)}
    (hpw : List.Pairwise (fun c d => ∀ x, x ∈ c → x ∉ d) C)
    {c c' : List α} (hc : c ∈ C) (hc' : c' ∈ C) {x : α}
    (hx : x ∈ c) (hx' : x ∈ c') : c = c' := by
  induction C with
  | nil => exact absurd hc (List.not_mem_nil c)
  | cons a C ih =>
    obtain ⟨hd, htl⟩ := List.pairwise_cons.mp hpw
    rcases List.mem_cons.mp hc with hc | hc <;>
      rcases List.mem_cons.mp hc' with hc' | hc'
    · rw [hc, hc']
    · exact absurd (hd c' hc' x (hc ▸ hx)) (fun h => h hx')
    · exact absurd (hd c hc x (hc' ▸ hx')) (fun h => h hx)
    · exact ih htl hc hc'

/-- Python's `min` with a key returns the first element whose key is
minimal; on a lexicographically sorted string list this is the shortest
member, ties broken lexicographically. -/
theorem min_foldl_spec :
    ∀ (xs : List String) (x : String),
      (x :: xs).Sorted (· ≤ ·) →
      (xs.foldl (fun best p => if p.length < best.length then p else best) x
          ∈ x :: xs) ∧
      (∀ p ∈ x :: xs,
        (xs.foldl (fun best p => if p.length < best.length then p else best)
          x).length ≤ p.length) ∧
      (∀ p ∈ x :: xs, p.length =
        (xs.foldl (fun best p => if p.length < best.length then p else best)
          x).length →
        xs.foldl (fun best p => if p.length < best.length then p else best) x
          ≤ p)
  | [], x, _ => by
    refine ⟨ List.mem_singleton.mpr rfl, ?_, ?_⟩
    · intro p hp
      rw [List.mem_singleton.mp hp, List.foldl_nil]
    · intro p hp _
      rw [List.mem_singleton.mp hp, List.foldl_nil]
  | y :: ys, x, hs => by
    obtain ⟨ hxall, hs'⟩ := List.sorted_cons.mp hs
    rw [List.foldl_cons]
    by_cases hyx : y.length < x.length
    · rw [if_pos hyx]
      obtain ⟨ m1, m2, m3⟩ := min_foldl_spec ys y hs'
      refine ⟨ List.mem_cons_of_mem x m1, ?_, ?_⟩
      · intro p hp
        rcases List.mem_cons.mp hp with hp | hp
        · subst hp
          have := m2 y (List.mem_cons_self y ys)
          omega
        · exact m2 p hp
      · intro p hp hplen
        rcases List.mem_cons.mp hp with hp | hp
        · exfalso
          subst hp
          have := m2 y (List.mem_cons_self y ys)
          omega
        · exact m3 p hp hplen
    · rw [if_neg hyx]
      have hsx : (x :: ys).Sorted (· ≤ ·) := by
        rw [List.sorted_cons]
        refine ⟨ ?_, (List.sorted_cons.mp hs').2⟩
        intro b hb
        exact le_trans (hxall y (List.mem_cons_self y ys))
          ((List.sorted_cons.mp hs').1 b hb)
      obtain ⟨ m1, m2, m3⟩ := min_foldl_spec ys x hsx
      refine ⟨ ?_, ?_, ?_⟩
      · rcases List.mem_cons.mp m1 with h | h
        · rw [h]
          exact List.mem_cons_self x (y :: ys)
        · exact List.mem_cons_of_mem x (List.mem_cons_of_mem y h)
      · intro p hp
        rcases List.mem_cons.mp hp with hp | hp
        · subst hp
          exact m2 p (List.mem_cons_self p ys)
        · rcases List.mem_cons.mp hp with hp | hp
          · subst hp
            have := m2 x (List.mem_cons_self x ys)
            omega
          · exact m2 p (List.mem_cons_of_mem x hp)
      · intro p hp hplen
        rcases List.mem_cons.mp hp with hp | hp
        · subst hp
          exact m3 p (List.mem_cons_self p ys) hplen
        · rcases List.mem_cons.mp hp with hp | hp
          · subst hp
            have hxm := m2 x (List.mem_cons_self x ys)
            have hxlen : x.length =
                (ys.foldl (fun best p =>
                  if p.length < best.length then p else best) x).length := by
              omega
            exact le_trans (m3 x (List.mem_cons_self x ys) hxlen)
              (hxall p (List.mem_cons_self p ys))
          · exact m3 p (List.mem_cons_of_mem x hp) hplen

/-- The representative of a non-empty cluster is one of its members. -/
theorem select_representative_mem (c : List String) (hne : c ≠ []) :
    RemoveDuplicates.select_representative c ∈ c := by
  match c with
  | [] => exact absurd rfl hne
  | x :: xs =>
    rw [RemoveDuplicates.select_representative]
    clear hne
    induction xs generalizing x with
    | nil => exact List.mem_singleton.mpr rfl
    | cons y ys ih =>
      rw [List.foldl_cons]
      by_cases hyx : y.length < x.length
      · rw [if_pos hyx]
        exact List.mem_cons_of_mem x (ih y)
      · rw [if_neg hyx]
        rcases List.mem_cons.mp (ih x) with h | h
        · rw [h]
          exact List.mem_cons_self x (y :: ys)
        · exact List.mem_cons_of_mem x (List.mem_cons_of_mem y h)

/-- The three decision fields of `apply_threshold` are computed before the
deletion branch and are identical in both branches. -/
theorem apply_threshold_shape (d : RemoveDuplicates.ImageDir) (thr : Nat)
    (delete : Bool) :
    (RemoveDuplicates.apply_threshold d thr delete).1.clusters =
      (if (RemoveDuplicates.listFiles d).length < 2 then []
       else RemoveDuplicates.find_connected_components
         (sweepPairs (pairDistances
           (RemoveDuplicates.computeHashes d (RemoveDuplicates.listFiles d)))
           thr)) ∧
    (RemoveDuplicates.apply_threshold d thr delete).1.to_keep =
      ((RemoveDuplicates.apply_threshold d thr delete).1.clusters).map
        RemoveDuplicates.select_representative ∧
    (RemoveDuplicates.apply_threshold d thr delete).1.to_delete =
      ((RemoveDuplicates.apply_threshold d thr delete).1.clusters).flatMap
        (fun c => c.filter (fun p =>
          decide (p ≠ RemoveDuplicates.select_representative c))) := by
  rw [RemoveDuplicates.apply_threshold]
  by_cases hlen : (RemoveDuplicates.listFiles d).length < 2
  · simp [hlen]
  · simp only [if_neg hlen]
    split
    · exact ⟨rfl, rfl, rfl⟩
    · exact ⟨rfl, rfl, rfl⟩

/-! ## Claim C3 — connected components, not cliques -/

/-- C3: for every set of similarity edges, `find_connected_components` of
`remove_duplicates.py` returns exactly the connected components of size
≥ 2 of the undirected graph induced by the edges (each cluster a full
transitive-closure class, clusters pairwise disjoint, every vertex with a
distinct reachable partner covered); and on the spec's four-file scenario
— edges A–B and B–C at threshold 5 (distances (A,B)=3, (A,C)=10, (B,C)=4,
all distances to D ≥ 99), with A,B,C,D rendered as 0,1,2,3 — the result
is the single cluster {A,B,C} obtained by transitive closure, and D
appears in no cluster. -/
theorem spec_C3_transitive_components :
    (∀ (α : Type) (_ : DecidableEq α) (_ : LinearOrder α)
      (pairs : List (α × α)),
      IsClusterList pairs (RemoveDuplicates.find_connected_components pairs)) ∧
    RemoveDuplicates.find_connected_components
      (sweepPairs [(0, 1, 3), (0, 2, 10), (1, 2, 4),
        (0, 3, 99), (1, 3, 99), (2, 3, 99)] 5) = [[0, 1, 2]] ∧
    ∀ c ∈ RemoveDuplicates.find_connected_components
      (sweepPairs [(0, 1, 3), (0, 2, 10), (1, 2, 4),
        (0, 3, 99), (1, 3, 99), (2, 3, 99)] 5), (3 : Nat) ∉ c := by
  refine ⟨?_, by rfl, by decide⟩
  intro α hdec hord pairs
  exact rd_fcc_clusters pairs

/-! ## Claim C7 — keeper never deleted, clusters of size ≥ 2 -/

/-- C7: in every `apply_threshold` result, each returned cluster has size
≥ 2, and its designated keeper (`select_representative`) appears in
`to_keep` and never in `to_delete`. -/
theorem spec_C7_keeper_invariant (d : RemoveDuplicates.ImageDir)
    (thr : Nat) (delete : Bool) :
    (∀ c ∈ (RemoveDuplicates.apply_threshold d thr delete).1.clusters,
      1 < c.length) ∧
    (∀ c ∈ (RemoveDuplicates.apply_threshold d thr delete).1.clusters,
      RemoveDuplicates.select_representative c ∈
        (RemoveDuplicates.apply_threshold d thr delete).1.to_keep) ∧
    (∀ c ∈ (RemoveDuplicates.apply_threshold d thr delete).1.clusters,
      RemoveDuplicates.select_representative c ∉
        (RemoveDuplicates.apply_threshold d thr delete).1.to_delete) := by
  obtain ⟨hcl, hkeep, hdel⟩ := apply_threshold_shape d thr delete
  have key : ∀ c ∈ (RemoveDuplicates.apply_threshold d thr delete).1.clusters,
      1 < c.length ∧
      RemoveDuplicates.select_representative c ∈
        (RemoveDuplicates.apply_threshold d thr delete).1.to_keep ∧
      RemoveDuplicates.select_representative c ∉
        (RemoveDuplicates.apply_threshold d thr delete).1.to_delete := by
    intro c hc
    rw [hcl] at hc
    by_cases hlen : (RemoveDuplicates.listFiles d).length < 2
    · rw [if_pos hlen] at hc
      exact absurd hc (List.not_mem_nil c)
    · rw [if_neg hlen] at hc
      obtain ⟨hclass, hpw, _⟩ := rd_fcc_clusters
        (sweepPairs (pairDistances
          (RemoveDuplicates.computeHashes d (RemoveDuplicates.listFiles d)))
          thr)
      have hc2 : 1 < c.length := (hclass c hc).2.1
      have hcne : c ≠ [] := by
        intro hnil
        rw [hnil] at hc2
        simp at hc2
      have hrep := select_representative_mem c hcne
      refine ⟨hc2, ?_, ?_⟩
      · rw [hkeep, hcl, if_neg hlen]
        exact List.mem_map_of_mem RemoveDuplicates.select_representative hc
      · rw [hdel, hcl, if_neg hlen]
        intro hmem
        obtain ⟨c', hc', hin⟩ := List.mem_flatMap.mp hmem
        have hin' := List.mem_filter.mp hin
        have hceq : c = c' :=
          pairwise_disjoint_mem_eq hpw hc hc' hrep hin'.1
        rw [← hceq] at hin'
        exact (of_decide_eq_true hin'.2) rfl
  exact ⟨fun c hc => (key c hc).1, fun c hc => (key c hc).2.1,
    fun c hc => (key c hc).2.2⟩

/-! ## Claim C8 — dry-run equivalence -/

/-- C8: with destructive delete disabled, `apply_threshold` returns the
identical `clusters`, `to_delete` and `to_keep` as the destructive run on
the same inputs, leaves the directory untouched and reports zero deleted
and zero failed deletions. -/
theorem spec_C8_dry_run_equiv (d : RemoveDuplicates.ImageDir) (thr : Nat) :
    (RemoveDuplicates.apply_threshold d thr false).1.clusters =
      (RemoveDuplicates.apply_threshold d thr true).1.clusters ∧
    (RemoveDuplicates.apply_threshold d thr false).1.to_delete =
      (RemoveDuplicates.apply_threshold d thr true).1.to_delete ∧
    (RemoveDuplicates.apply_threshold d thr false).1.to_keep =
      (RemoveDuplicates.apply_threshold d thr true).1.to_keep ∧
    (RemoveDuplicates.apply_threshold d thr false).2 = d ∧
    (RemoveDuplicates.apply_threshold d thr false).1.deleted_count = 0 ∧
    (RemoveDuplicates.apply_threshold d thr false).1.failed_delete_count
      = 0 := by
  obtain ⟨hcl, hkeep, hdel⟩ := apply_threshold_shape d thr false
  obtain ⟨hcl', hkeep', hdel'⟩ := apply_threshold_shape d thr true
  have hc : (RemoveDuplicates.apply_threshold d thr false).1.clusters =
      (RemoveDuplicates.apply_threshold d thr true).1.clusters := by
    rw [hcl, hcl']
  refine ⟨hc, ?_, ?_, ?_, ?_, ?_⟩
  · rw [hdel, hdel', hc]
  · rw [hkeep, hkeep', hc]
  all_goals
    rw [RemoveDuplicates.apply_threshold]
    by_cases hlen : (RemoveDuplicates.listFiles d).length < 2
  · rw [if_pos hlen]
  · simp [hlen]
  · rw [if_pos hlen]
  · simp [hlen]
  · rw [if_pos hlen]
  · simp [hlen]

/-! ## Claim C6 — representative selection -/

/-- C6: for every non-empty cluster (in the sorted form the clustering
step produces), `select_representative` returns a member of the cluster
whose filename is shortest, and which is lexicographically least among
the members of that minimal length — Python's `min(cluster, key=len)`
keeps the first minimum of the sorted list. -/
theorem spec_C6_shortest_then_lex (cluster : List String)
    (hs : cluster.Sorted (· ≤ ·)) (hne : cluster ≠ []) :
    RemoveDuplicates.select_representative cluster ∈ cluster ∧
    (∀ p ∈ cluster,
      (RemoveDuplicates.select_representative cluster).length ≤ p.length) ∧
    (∀ p ∈ cluster,
      p.length = (RemoveDuplicates.select_representative cluster).length →
      RemoveDuplicates.select_representative cluster ≤ p) := by
  match cluster with
  | [] => exact absurd rfl hne
  | x :: xs =>
    rw [RemoveDuplicates.select_representative]
    exact min_foldl_spec xs x hs

/-- Witness for C6 at the spec's two examples: the sorted clusters
`["a.jpg", "bb.jpg"]` and `["ab.jpg", "cd.jpg"]` satisfy the hypotheses,
and the selected keepers are `"a.jpg"` (shorter name) and `"ab.jpg"`
(lexicographic tie-break). -/
theorem spec_C6_shortest_then_lex_witness :
    (RemoveDuplicates.select_representative ["a.jpg", "bb.jpg"] = "a.jpg" ∧
      RemoveDuplicates.select_representative ["a.jpg", "bb.jpg"] ∈
        (["a.jpg", "bb.jpg"] : List String) ∧
      ∀ p ∈ (["a.jpg", "bb.jpg"] : List String),
        (RemoveDuplicates.select_representative
          ["a.jpg", "bb.jpg"]).length ≤ p.length) ∧
    (RemoveDuplicates.select_representative ["ab.jpg", "cd.jpg"] = "ab.jpg" ∧
      RemoveDuplicates.select_representative ["ab.jpg", "cd.jpg"] ∈
        (["ab.jpg", "cd.jpg"] : List String) ∧
      ∀ p ∈ (["ab.jpg", "cd.jpg"] : List String),
        p.length = (RemoveDuplicates.select_representative
          ["ab.jpg", "cd.jpg"]).length →
        RemoveDuplicates.select_representative ["ab.jpg", "cd.jpg"] ≤ p) := by
  have hs1 : (["a.jpg", "bb.jpg"] : List String).Sorted (· ≤ ·) := by
    refine List.sorted_cons.mpr ⟨?_, List.sorted_singleton _⟩
    intro b hb
    rw [List.mem_singleton.mp hb]
    exact le_of_lt (by rw [String.lt_iff_toList_lt]; decide)
  have hs2 : (["ab.jpg", "cd.jpg"] : List String).Sorted (· ≤ ·) := by
    refine List.sorted_cons.mpr ⟨?_, List.sorted_singleton _⟩
    intro b hb
    rw [List.mem_singleton.mp hb]
    exact le_of_lt (by rw [String.lt_iff_toList_lt]; decide)
  obtain ⟨a1, a2, _⟩ :=
    spec_C6_shortest_then_lex ["a.jpg", "bb.jpg"] hs1 (by simp)
  obtain ⟨b1, _, b3⟩ :=
    spec_C6_shortest_then_lex ["ab.jpg", "cd.jpg"] hs2 (by simp)
  exact ⟨⟨rfl, a1, a2⟩, ⟨rfl, b1, b3⟩⟩
